import Mathlib

/-!
Verification of the ansi-graphics SGR escape-sequence generator.

The development shallowly embeds the three source files of the repository:

* `macros/src/parse.rs` — the static mini-language parser (`parse_string`,
  `parse_param`, `find_delimiter`, `parse_7bit`, `parse_24bit`, `parse_sgr`,
  `parse_add_style`, `parse_sub_style`, `parse_color`, and the
  `AppendToString` impl for `u8`);
* `src/writer.rs` — the two writer implementations `FmtWriter` and `IoWriter`;
* `src/discrete.rs` — the `Style` and `Color` enums and their `write` methods.

Modelling conventions:

* Rust `&str` values are modelled as `List Char`; a Rust `String` buffer is a
  `List Char`.  `CharIndices` is modelled as `List (Nat × Char)` holding the
  position of each character.  In the top-level parser the indices are
  character positions rather than byte offsets; the two coincide exactly when
  every character up to the slice boundary is one byte wide, which holds on
  the inputs the parser claims quantify over (their hypotheses restrict the
  relevant characters to ASCII).  `parse_color`'s slices `&s[2..s.len()-1]`,
  `&s[0..2]`, `&s[2..4]`, `&s[4..6]` are instead modelled byte-faithfully
  (`utf8Len`, `byteSlice`): slicing panics, as in Rust, when a byte offset
  falls inside a multi-byte character.
* Rust functions that can `panic!` / `expect` / `assert!` return `PRes`,
  whose `panicked` constructor marks an aborted call; `Option` failures are
  modelled with `Option` as in the source.
* Loops (`while`, iterator `find`) are modelled either structurally or with
  an explicit fuel argument; the fuel supplied at each entry point
  (`length + 1`) strictly exceeds the number of iterations the loop can make
  (each iteration consumes at least one character of the input), so the
  out-of-fuel branch is unreachable from the entry points.
* `u8`/`u32` string parsing (`from_str`, `from_str_radix`) is modelled after
  the Rust standard library: an optional leading plus sign followed by one or
  more digits of the radix, rejecting values above the type maximum.
-/

namespace AnsiGraphics

/-- Result of a Rust call that may panic: either an aborted call or a value. -/
inductive PRes (α : Type) where
  | panicked : PRes α
  | ok : α → PRes α
deriving DecidableEq, Repr

/-- Character data of a string literal (Rust `&str` as a list of chars). -/
def lc (s : String) : List Char := s.data

/-- Rust slice `s[a..b]` on character positions. -/
def slice (s : List Char) (a b : Nat) : List Char := (s.drop a).take (b - a)

/-- Modelled from the spec: the crate root's `ESCAPE` introducer constant
(`ESC [`, bytes 0x1B `[`), which is declared outside the given source files.
Spec section 6: "Escape constants: introducer = `ESC [` (0x1B `[`)". -/
def ESCAPE : List Char := ['\x1b', '[']

/-- Modelled from the spec: the crate root's `END` terminator constant
(`m`, ASCII 0x6D), declared outside the given source files. -/
def ENDCH : Char := 'm'

/-- Rust `char::to_digit(radix)`. -/
def toDigit? (radix : Nat) (c : Char) : Option Nat :=
  let d? : Option Nat :=
    if '0' ≤ c ∧ c ≤ '9' then some (c.toNat - 48)
    else if 'a' ≤ c ∧ c ≤ 'z' then some (c.toNat - 97 + 10)
    else if 'A' ≤ c ∧ c ≤ 'Z' then some (c.toNat - 65 + 10)
    else none
  d?.bind fun d => if d < radix then some d else none

/-- Value of a nonempty all-digit string in the given radix (`none` if empty
or any character is not a digit of the radix). -/
def digitsVal (radix : Nat) (l : List Char) : Option Nat :=
  if l.isEmpty then none
  else l.foldl (fun acc c => acc.bind fun a => (toDigit? radix c).map fun d => a * radix + d)
    (some 0)

/-- Rust `uN::from_str_radix` (and `FromStr`, radix 10) for an unsigned
integer type with maximum value `mx`: optional leading `+` sign, then one or
more digits; overflow past `mx` is an error.  (Intermediate `checked_mul` /
`checked_add` overflow is equivalent to the final value exceeding `mx`, as
the accumulator grows monotonically.) -/
def rustParseUnsigned (radix mx : Nat) (l : List Char) : Option Nat :=
  match l with
  | [] => none
  | '+' :: rest => (digitsVal radix rest).bind fun v => if v ≤ mx then some v else none
  | _ => (digitsVal radix l).bind fun v => if v ≤ mx then some v else none

/-- Rust `u8::from_str` / `u8::from_str_radix`. -/
def rustParseU8 (radix : Nat) (l : List Char) : Option Nat :=
  rustParseUnsigned radix 255 l

/-- Rust `u32::from_str_radix`. -/
def rustParseU32 (radix : Nat) (l : List Char) : Option Nat :=
  rustParseUnsigned radix 4294967295 l

/-- Rust `char::from_u32`. -/
def charFromU32? (n : Nat) : Option Char :=
  if n.isValidChar then some (Char.ofNat n) else none

/-- Rust `str::split(',')` (an empty string yields one empty piece). -/
def splitComma : List Char → List (List Char)
  | [] => [[]]
  | c :: rest =>
    if c = ',' then [] :: splitComma rest
    else
      match splitComma rest with
      | h :: t => (c :: h) :: t
      | [] => [[c]]

/-- Rust `.collect::<Result<Vec<u8>, _>>()` over `str::FromStr` for `u8`. -/
def collectU8 : List (List Char) → Option (List Nat)
  | [] => some []
  | p :: rest =>
    match rustParseU8 10 p with
    | none => none
    | some n => (collectU8 rest).map (n :: ·)

/-- `impl AppendToString for u8`: manual decimal digit extraction appended to
the buffer (`parse.rs` lines 370-383). -/
def append_to (n : Nat) (buf : List Char) : List Char :=
  let p : List Char × Nat :=
    if 10 ≤ n then
      let q : List Char × Nat :=
        if 100 ≤ n then (buf ++ [Char.ofNat (48 + n / 100)], n % 100) else (buf, n)
      (q.1 ++ [Char.ofNat (48 + q.2 / 10)], q.2 % 10)
    else (buf, n)
  p.1 ++ [Char.ofNat (48 + p.2)]

/-- `parse_add_style` (`parse.rs` lines 247-260). -/
def parse_add_style (s : String) : Option Nat :=
  if s = "Reset" then some 0
  else if s = "Bold" then some 1
  else if s = "Dim" then some 2
  else if s = "Italic" then some 3
  else if s = "Underline" then some 4
  else if s = "Blinking" then some 5
  else if s = "Inverse" then some 7
  else if s = "Hidden" then some 8
  else if s = "Strikethrough" then some 9
  else none

/-- `parse_sub_style` (`parse.rs` lines 261-272). -/
def parse_sub_style (s : String) : Option Nat :=
  if s = "Bold" ∨ s = "Dim" then some 22
  else if s = "Italic" then some 23
  else if s = "Underline" then some 24
  else if s = "Blinking" then some 25
  else if s = "Inverse" then some 27
  else if s = "Hidden" then some 28
  else if s = "Strikethrough" then some 29
  else none

/-- Inner `parse_color_simple` of `parse_color` (`parse.rs` lines 275-297). -/
def parse_color_simple (s : String) : Option Nat :=
  if s = "BlackFg" then some 30
  else if s = "RedFg" then some 31
  else if s = "GreenFg" then some 32
  else if s = "YellowFg" then some 33
  else if s = "BlueFg" then some 34
  else if s = "MagentaFg" then some 35
  else if s = "CyanFg" then some 36
  else if s = "WhiteFg" then some 37
  else if s = "DefaultFg" then some 39
  else if s = "BlackBg" then some 40
  else if s = "RedBg" then some 41
  else if s = "GreenBg" then some 42
  else if s = "YellowBg" then some 43
  else if s = "BlueBg" then some 44
  else if s = "MagentaBg" then some 45
  else if s = "CyanBg" then some 46
  else if s = "WhiteBg" then some 47
  else if s = "DefaultBg" then some 49
  else none

/-- UTF-8 byte length of a character list — Rust `str::len` /
`as_bytes().len()`. -/
def utf8Len (l : List Char) : Nat := (l.map Char.utf8Size).sum

/-- Drop `k` bytes from the front of a character list.  Mirrors Rust byte
indexing on `&str`: panics when the offset `k` falls inside a character
(not a char boundary) or past the end. -/
def dropBytes : List Char → Nat → PRes (List Char)
  | l, 0 => .ok l
  | [], _ + 1 => .panicked
  | c :: l, k + 1 =>
    if c.utf8Size ≤ k + 1 then dropBytes l (k + 1 - c.utf8Size) else .panicked

/-- Take the first `k` bytes of a character list, panicking (as Rust byte
slicing does) when `k` is not a char boundary or past the end. -/
def takeBytes : List Char → Nat → PRes (List Char)
  | _, 0 => .ok []
  | [], _ + 1 => .panicked
  | c :: l, k + 1 =>
    if c.utf8Size ≤ k + 1 then
      match takeBytes l (k + 1 - c.utf8Size) with
      | .ok r => .ok (c :: r)
      | .panicked => .panicked
    else .panicked

/-- Rust byte-indexed slice `&s[a..b]` on the character-list model: panics
when the range is inverted, runs past the end, or either endpoint falls
inside a multi-byte character. -/
def byteSlice (s : List Char) (a b : Nat) : PRes (List Char) :=
  if a ≤ b then
    match dropBytes s a with
    | .panicked => .panicked
    | .ok r => takeBytes r (b - a)
  else .panicked

/-- The parenthesized-decimal arm of `parse_color` (`parse.rs` lines
311-332): split the interior on commas, parse each piece as `u8`, and emit
`5;<n>` for one value or `2;<n1>;<n2>;<n3>` for three; any other arity or a
parse failure yields `None`.  (`str::split` and `u8::from_str` never panic,
so this arm is total.) -/
def parse_color_paren (buf : List Char) (inner : List Char) : List Char × Option Unit :=
  match collectU8 (splitComma inner) with
  | none => (buf, none)
  | some parts =>
    match parts with
    | [n] => (append_to n (buf ++ lc "5;"), some ())
    | [n1, n2, n3] =>
      (append_to n3 (append_to n2 (append_to n1 (buf ++ lc "2;") ++ [';']) ++ [';']),
        some ())
    | _ => (buf, none)

/-- The bracketed-hexadecimal arm of `parse_color` (`parse.rs` lines
333-347), dispatching on the BYTE length of the interior (`s.len()`): a
2-byte interior is one base-16 byte emitted as `5;<n>`, a 6-byte interior
is three base-16 bytes from the byte slices `&s[0..2]`, `&s[2..4]`,
`&s[4..6]` emitted as `2;<n1>;<n2>;<n3>` — those slices panic on multi-byte
content that misaligns the 2-byte boundaries; the `5;`/`2;` prefix is
pushed before the parse, as in the source. -/
def parse_color_hex (buf : List Char) (inner : List Char) : PRes (List Char × Option Unit) :=
  if utf8Len inner = 2 then
    let buf := buf ++ lc "5;"
    match rustParseU8 16 inner with
    | some n => .ok (append_to n buf, some ())
    | none => .ok (buf, none)
  else if utf8Len inner = 6 then
    let buf := buf ++ lc "2;"
    match byteSlice inner 0 2 with
    | .panicked => .panicked
    | .ok p1 =>
      match rustParseU8 16 p1 with
      | none => .ok (buf, none)
      | some n1 =>
        let buf := append_to n1 buf ++ [';']
        match byteSlice inner 2 4 with
        | .panicked => .panicked
        | .ok p2 =>
          match rustParseU8 16 p2 with
          | none => .ok (buf, none)
          | some n2 =>
            let buf := append_to n2 buf ++ [';']
            match byteSlice inner 4 6 with
            | .panicked => .panicked
            | .ok p3 =>
              match rustParseU8 16 p3 with
              | none => .ok (buf, none)
              | some n3 => .ok (append_to n3 buf, some ())
  else .ok (buf, none)

/-- The `(left, right)` bracket dispatch of `parse_color` (`parse.rs` lines
310-349), applied to the interior `s[2..len-1]`. -/
def parse_color_body (buf : List Char) (left right : Char) (inner : List Char) :
    PRes (List Char × Option Unit) :=
  if left = '(' ∧ right = ')' then .ok (parse_color_paren buf inner)
  else if left = '[' ∧ right = ']' then parse_color_hex buf inner
  else .ok (buf, none)

/-- The tail of the non-named branch of `parse_color` after the `f`/`b`
selector has been pushed (`parse.rs` lines 307-349): `left` is
`chars.next()?`, `right` is `chars.next_back()?`, and the interior is the
byte slice `&s[2..s.len()-1]` of the full segment `s`, computed BEFORE the
bracket match — it panics when byte offset 2 or `len-1` falls inside a
multi-byte character (i.e. when the second or last character is not one
byte wide). -/
def parse_color_rest (s : List Char) (buf : List Char) :
    List Char → PRes (List Char × Option Unit)
  | [] => .ok (buf, none)
  | _left :: rest2 =>
    match rest2.getLast? with
    | none => .ok (buf, none)
    | some right =>
      match byteSlice s 2 (utf8Len s - 1) with
      | .panicked => .panicked
      | .ok inner => parse_color_body buf _left right inner

/-- The non-named branch of `parse_color` (`parse.rs` lines 300-350): the
first character selects `38;` (foreground) or `48;` (background), pushed to
the buffer before any further validation, as in the source; the full
segment is retained for the byte slice `&s[2..s.len()-1]`. -/
def parse_color_complex : List Char → List Char → PRes (List Char × Option Unit)
  | [], buf => .ok (buf, none)
  | c0 :: rest, buf =>
    if c0 = 'f' ∨ c0 = 'b' then
      parse_color_rest (c0 :: rest) (buf ++ (if c0 = 'f' then lc "38;" else lc "48;")) rest
    else .ok (buf, none)

/-- `parse_color` (`parse.rs` lines 273-352).  Returns the buffer (which the
source mutates even on some failure paths) together with the `Option<()>`
result; `panicked` marks the byte-slice panics of the source on
boundary-misaligned multi-byte content. -/
def parse_color (seg : List Char) (buf : List Char) : PRes (List Char × Option Unit) :=
  match parse_color_simple (String.mk seg) with
  | some n => .ok (append_to n buf, some ())
  | none => parse_color_complex seg buf

/-- `parse_sgr` (`parse.rs` lines 238-246). -/
def parse_sgr (ch : Char) (seg : List Char) (buf : List Char) :
    PRes (List Char × Option Unit) :=
  if ch = '+' then
    match parse_add_style (String.mk seg) with
    | some n => .ok (append_to n buf, some ())
    | none => .ok (buf, none)
  else if ch = '-' then
    match parse_sub_style (String.mk seg) with
    | some n => .ok (append_to n buf, some ())
    | none => .ok (buf, none)
  else if ch = '#' then parse_color seg buf
  else .ok (buf, some ())

/-- `find_delimiter` (`parse.rs` lines 208-225): scans for the next
delimiter; the two booleans record whether the found character sets
`close_found` (`}`) or `after_output` (`&`). -/
def find_delimiter : List (Nat × Char) → Option ((Nat × Char) × List (Nat × Char) × Bool × Bool)
  | [] => none
  | (i, c) :: rest =>
    if c = '+' ∨ c = '-' ∨ c = '#' then some ((i, c), rest, false, false)
    else if c = '}' then some ((i, c), rest, true, false)
    else if c = '&' then some ((i, c), rest, false, true)
    else find_delimiter rest

/-- The trailing `if let Some(output) = output { buf.push('{'); ... }` of
`parse_param`. -/
def emitOutput (output : Option (List Char)) (buf : List Char) : List Char :=
  match output with
  | some o => buf ++ '{' :: o ++ ['}']
  | none => buf

/-- The `while !close_found` loop of `parse_param` (`parse.rs` lines
158-194).  State: remaining iterator, the persistent `after_output` flag,
the captured `output` slice, the keyword start position, the current
delimiter `ch`, and the buffer.  Returns the buffer, the (possibly
consumed) `output`, and the remaining iterator at loop exit. -/
def paramLoop (s : List Char) :
    Nat → List (Nat × Char) → Bool → Option (List Char) → Nat → Char → List Char →
    PRes (List Char × Option (List Char) × List (Nat × Char))
  | 0, _, _, _, _, _, _ => .panicked
  | fuel + 1, it, ao, output, start, ch, buf =>
    match find_delimiter it with
    | none => .panicked
    | some ((e, nch0), it1, bcf, bao) =>
      let cf := bcf
      let ao := ao || bao
      let cont : Option (Nat × Char × List (Nat × Char)) :=
        if ao then
          match it1 with
          | [] => none
          | (_, c2) :: it2 => some (e + 2, c2, it2)
        else some (e + 1, nch0, it1)
      match cont with
      | none => .panicked
      | some (nstart, nch, it2) =>
        match parse_sgr ch (slice s start e) buf with
        | .panicked => .panicked
        | .ok (_, none) => .panicked
        | .ok (buf1, some _) =>
          let next : List Char × Option (List Char) × Bool :=
            if ao then
              (match output with
               | some o => buf1 ++ 'm' :: '{' :: o ++ '}' :: ESCAPE
               | none => buf1, none, false)
            else (buf1 ++ [';'], output, ao)
          if cf then .ok (next.1, next.2.1, it2)
          else paramLoop s fuel it2 next.2.2 next.2.1 nstart nch next.1

/-- The part of `parse_param` after the initial delimiter/output resolution
(`parse.rs` lines 155-204): the escape section guarded by `!close_found`,
the `pop`/`push('m')` close, and the trailing output emission. -/
def parse_param_after (output : Option (List Char)) (cf : Bool) (ao : Bool) (ch : Char)
    (i : Nat) (s : List Char) (it : List (Nat × Char)) (buf : List Char) :
    PRes (List Char × List (Nat × Char)) :=
  if cf then .ok (emitOutput output buf, it)
  else
    match paramLoop s (it.length + 1) it ao output (i + 1) ch (buf ++ ESCAPE) with
    | .panicked => .panicked
    | .ok (buf2, out2, it2) =>
      if buf2.isEmpty then .panicked
      else .ok (emitOutput out2 (buf2.dropLast ++ [ENDCH]), it2)

/-- `parse_param` (`parse.rs` lines 130-205).  `ch` is the character after
the opening brace, `i` its position.  Returns the new buffer and the
remaining iterator. -/
def parse_param (ch : Char) (i : Nat) (s : List Char) (it : List (Nat × Char))
    (buf : List Char) : PRes (List Char × List (Nat × Char)) :=
  if ch = '+' ∨ ch = '-' ∨ ch = '#' then
    parse_param_after none false false ch i s it buf
  else
    match find_delimiter it with
    | none => .ok (buf ++ s.drop (i - 1), [])
    | some ((e, nch), it1, bcf, bao) =>
      parse_param_after (some (slice s i e)) bcf bao nch e s it1 buf

/-- `parse_7bit` (`parse.rs` lines 227-231): `chars.nth(1)` yields the
position `e` of the second character after the `x`; the source then slices
`s[e-2..=e]` (three characters, beginning at the `x` itself) and feeds the
slice to `u32::from_str_radix(_, 16)`. -/
def parse_7bit (chars : List (Nat × Char)) (s : List Char) :
    Option (Char × List (Nat × Char)) :=
  match chars with
  | _ :: (e, _) :: rest =>
    (charFromU32? =<< rustParseU32 16 (slice s (e - 2) (e + 1))).map (fun c => (c, rest))
  | _ => none

/-- `chars.find(|c| c.1 == '}')` used by `parse_24bit`. -/
def findClose : List (Nat × Char) → Option (Nat × List (Nat × Char))
  | [] => none
  | (i, c) :: rest => if c = '}' then some (i, rest) else findClose rest

/-- `parse_24bit` (`parse.rs` lines 233-237). -/
def parse_24bit (chars : List (Nat × Char)) (s : List Char) :
    Option (Char × List (Nat × Char)) :=
  match chars with
  | _ :: (st, _) :: rest =>
    match findClose rest with
    | some (e, rest2) =>
      (charFromU32? =<< rustParseU32 16 (slice s st e)).map (fun c => (c, rest2))
    | none => none
  | _ => none

/-- Main loop of `parse_string` (`parse.rs` lines 52-100).  The iterator
models `next` together with the remaining `CharIndices`: its head is the
character the `while let` examines.  The fuel strictly decreases once per
iteration while at least one character is consumed, so `parse_string`'s
fuel of `length + 1` never runs out. -/
def psGo (s : List Char) : Nat → List (Nat × Char) → List Char → PRes (Option (List Char))
  | 0, _, _ => .panicked
  | _ + 1, [], buf => .ok (some buf)
  | fuel + 1, (_, ch) :: it, buf =>
    if ch = '\\' then
      match it with
      | [] => .panicked
      | (_, e) :: it2 =>
        if e = '\'' then psGo s fuel it2 (buf ++ ['\''])
        else if e = '"' then psGo s fuel it2 (buf ++ ['"'])
        else if e = 'x' then
          match parse_7bit it2 s with
          | some (c, it3) => psGo s fuel it3 (buf ++ [c])
          | none => .ok none
        else if e = 'n' then psGo s fuel it2 (buf ++ ['\n'])
        else if e = 'r' then psGo s fuel it2 (buf ++ ['\r'])
        else if e = 't' then psGo s fuel it2 (buf ++ ['\t'])
        else if e = '\\' then psGo s fuel it2 (buf ++ ['\\'])
        else if e = '0' then psGo s fuel it2 (buf ++ ['\x00'])
        else if e = 'u' then
          match parse_24bit it2 s with
          | some (c, it3) => psGo s fuel it3 (buf ++ [c])
          | none => .ok none
        else if e = '\n' then
          psGo s fuel
            (it2.dropWhile fun p => p.2 = ' ' ∨ p.2 = '\n' ∨ p.2 = '\r' ∨ p.2 = '\t') buf
        else .ok none
    else if ch = '{' then
      match it with
      | [] => psGo s fuel [] (buf ++ ['{'])
      | (j, c2) :: it2 =>
        if c2 = '{' then psGo s fuel it2 (buf ++ ['{', '{'])
        else if c2 = '}' then psGo s fuel it2 (buf ++ ['{', '}'])
        else
          match parse_param c2 j s it2 buf with
          | .panicked => .panicked
          | .ok (buf2, it3) => psGo s fuel it3 buf2
    else if ch = '}' then
      match it with
      | [] => psGo s fuel [] (buf ++ ['}'])
      | (_, c2) :: it2 =>
        if c2 = '}' then psGo s fuel it2 (buf ++ ['}', '}'])
        else psGo s fuel it2 (buf ++ ['}'])
    else psGo s fuel it (buf ++ [ch])

/-- `parse_string` (`parse.rs` lines 47-102). -/
def parse_string (s : List Char) : PRes (Option (List Char)) :=
  psGo s (s.length + 1) s.enum []

/-! ## The runtime side: `src/discrete.rs` and `src/writer.rs` -/

/-- Modelled from the spec: the crate root's `SGRBuilder` (not among the
given source files) buffers numeric codes before serialization; its
`write_code` appends one code and `write_codes` appends each element in
order (spec section 4.2). -/
def SGRCodes := List Nat

/-- Modelled from the spec: `SGRBuilder::write_code` appends one code to the
buffered sequence. -/
def write_code (b : List Nat) (n : Nat) : List Nat := b ++ [n]

/-- Modelled from the spec: `SGRBuilder::write_codes` appends each code in
order. -/
def write_codes (b : List Nat) (l : List Nat) : List Nat := b ++ l

/-- Modelled from the spec: serialization of the buffered codes — each code
rendered in decimal, separated by `;`, per the Builder guarantee of spec
section 4.2 ("codes separated by `;` in call order"). -/
def renderCodes (b : List Nat) : List Char :=
  List.intercalate (lc ";") (b.map fun n => (Nat.repr n).data)

/-- The `Style` enum of `discrete.rs` (lines 7-48). -/
inductive Style where
  | Reset | Bold | Dim | Italic | Underline | Blinking | Inverse | Hidden | Strikethrough
  | NotBold | NotDim | NotItalic | NotUnderline | NotBlinking | NotInverse | NotHidden
  | NotStrikethrough
deriving DecidableEq, Repr

/-- `impl DiscreteSGR for Style`, `Style::write` (`discrete.rs` lines
54-79): one `write_code` with the matched code. -/
def Style.write (st : Style) (b : List Nat) : List Nat :=
  write_code b
    (match st with
     | .Reset => 0
     | .Bold => 1
     | .Dim => 2
     | .Italic => 3
     | .Underline => 4
     | .Blinking => 5
     | .Inverse => 7
     | .Hidden => 8
     | .Strikethrough => 9
     | .NotBold | .NotDim => 22
     | .NotItalic => 23
     | .NotUnderline => 24
     | .NotBlinking => 25
     | .NotInverse => 27
     | .NotHidden => 28
     | .NotStrikethrough => 29)

/-- The `Color` enum of `discrete.rs` (lines 82-136). -/
inductive Color where
  | BlackFg | RedFg | GreenFg | YellowFg | BlueFg | MagentaFg | CyanFg | WhiteFg
  | ByteFg (n : Nat) | RgbFg (r g b : Nat) | DefaultFg
  | BlackBg | RedBg | GreenBg | YellowBg | BlueBg | MagentaBg | CyanBg | WhiteBg
  | ByteBg (n : Nat) | RgbBg (r g b : Nat) | DefaultBg
deriving DecidableEq, Repr

/-- `impl DiscreteSGR for Color`, `Color::write` (`discrete.rs` lines
142-174), including the literal code arrays `[38, 2, n]` for `ByteFg` and
`[38, 5, r, g, b]` for `RgbFg` (and the `48`-variants for backgrounds). -/
def Color.write (c : Color) (bu : List Nat) : List Nat :=
  match c with
  | .BlackFg => write_code bu 30
  | .RedFg => write_code bu 31
  | .GreenFg => write_code bu 32
  | .YellowFg => write_code bu 33
  | .BlueFg => write_code bu 34
  | .MagentaFg => write_code bu 35
  | .CyanFg => write_code bu 36
  | .WhiteFg => write_code bu 37
  | .ByteFg n => write_codes bu [38, 2, n]
  | .RgbFg r g b => write_codes bu [38, 5, r, g, b]
  | .DefaultFg => write_code bu 39
  | .BlackBg => write_code bu 40
  | .RedBg => write_code bu 41
  | .GreenBg => write_code bu 42
  | .YellowBg => write_code bu 43
  | .BlueBg => write_code bu 44
  | .MagentaBg => write_code bu 45
  | .CyanBg => write_code bu 46
  | .WhiteBg => write_code bu 47
  | .ByteBg n => write_codes bu [48, 2, n]
  | .RgbBg r g b => write_codes bu [48, 5, r, g, b]
  | .DefaultBg => write_code bu 49

/-- `FmtWriter` state (`writer.rs` lines 3-6): output sink and the
`first_write` flag.  The text sink is modelled as the list of characters
written so far. -/
structure FmtWriter where
  out : List Char
  first_write : Bool
deriving DecidableEq, Repr

/-- `FmtWriter::new` (`writer.rs` lines 9-14): starts with
`first_write = true`. -/
def FmtWriter.new : FmtWriter := ⟨[], true⟩

/-- `FmtWriter::escape` (`writer.rs` lines 26-29): sets `first_write` to
`true` and writes the introducer. -/
def FmtWriter.escape (w : FmtWriter) : FmtWriter :=
  { out := w.out ++ ESCAPE, first_write := true }

/-- `FmtWriter::end` (`writer.rs` lines 31-33): writes the terminator. -/
def FmtWriter.endw (w : FmtWriter) : FmtWriter :=
  { w with out := w.out ++ [ENDCH] }

/-- `FmtWriter::write_code` (`writer.rs` lines 35-44): `;` before every code
except when `first_write` is set; clears the flag. -/
def FmtWriter.wcode (w : FmtWriter) (code : Nat) : FmtWriter :=
  let w :=
    if w.first_write then { w with first_write := false }
    else { w with out := w.out ++ [';'] }
  { w with out := w.out ++ (Nat.repr code).data }

/-- `IoWriter` state (`writer.rs` lines 47-50); the byte sink is modelled as
the list of (ASCII) characters written. -/
structure IoWriter where
  out : List Char
  first_write : Bool
deriving DecidableEq, Repr

/-- `IoWriter::new` (`writer.rs` lines 52-59): the `first_write` flag is a
constructor argument. -/
def IoWriter.new (first_write : Bool) : IoWriter := ⟨[], first_write⟩

/-- `IoWriter::escape` (`writer.rs` lines 74-76): writes the introducer and
does NOT touch `first_write`. -/
def IoWriter.escape (w : IoWriter) : IoWriter :=
  { w with out := w.out ++ ESCAPE }

/-- `IoWriter::end` (`writer.rs` lines 78-80). -/
def IoWriter.endw (w : IoWriter) : IoWriter :=
  { w with out := w.out ++ [ENDCH] }

/-- `IoWriter::write_code` (`writer.rs` lines 81-89). -/
def IoWriter.wcode (w : IoWriter) (code : Nat) : IoWriter :=
  let w :=
    if w.first_write then { w with first_write := false }
    else { w with out := w.out ++ [';'] }
  { w with out := w.out ++ (Nat.repr code).data }

/-- A call against the `AnsiWriter` trait interface (`writer.rs` lines
92-106): `escape`, `write_code`, or `end`. -/
inductive WCall where
  | escape | code (n : Nat) | endw
deriving DecidableEq, Repr

/-- Run a sequence of `AnsiWriter` calls against a `FmtWriter`. -/
def FmtWriter.run (w : FmtWriter) : List WCall → FmtWriter
  | [] => w
  | .escape :: rest => (w.escape).run rest
  | .code n :: rest => (w.wcode n).run rest
  | .endw :: rest => (w.endw).run rest

/-- Run a sequence of `AnsiWriter` calls against an `IoWriter`. -/
def IoWriter.run (w : IoWriter) : List WCall → IoWriter
  | [] => w
  | .escape :: rest => (w.escape).run rest
  | .code n :: rest => (w.wcode n).run rest
  | .endw :: rest => (w.endw).run rest

/-! ## Helper lemmas about the iterator and the main loop -/

/-- A character that takes the plain copy-through arm of `parse_string`. -/
abbrev noSpecials (l : List Char) : Prop := ∀ c ∈ l, c ≠ '{' ∧ c ≠ '}' ∧ c ≠ '\\'

/-- Characters that `find_delimiter` never stops at. -/
abbrev noDelims (l : List Char) : Prop :=
  ∀ c ∈ l, c ≠ '+' ∧ c ≠ '-' ∧ c ≠ '#' ∧ c ≠ '&' ∧ c ≠ '}'

theorem ef_append (n : Nat) (a b : List Char) :
    List.enumFrom n (a ++ b) = List.enumFrom n a ++ List.enumFrom (n + a.length) b := by
  induction a generalizing n with
  | nil => simp [List.enumFrom]
  | cons c a ih =>
    show (n, c) :: List.enumFrom (n + 1) (a ++ b)
        = (n, c) :: List.enumFrom (n + 1) a ++ List.enumFrom (n + (c :: a).length) b
    rw [ih (n + 1), show n + (c :: a).length = n + 1 + a.length from by simp; omega]
    rfl

theorem ef_map_snd (n : Nat) (l : List Char) :
    (List.enumFrom n l).map Prod.snd = l := by
  induction l generalizing n with
  | nil => rfl
  | cons c l ih => simp [List.enumFrom, ih (n + 1)]

theorem ef_length (n : Nat) (l : List Char) :
    (List.enumFrom n l).length = l.length := by
  induction l generalizing n with
  | nil => rfl
  | cons c l ih => simp [List.enumFrom, ih (n + 1)]

theorem drop_len_append (a b : List Char) : (a ++ b).drop a.length = b := by
  induction a with
  | nil => rfl
  | cons c a ih => simp [ih]

/-- Processing a prefix of plain characters copies it to the buffer and
consumes one fuel per character. -/
theorem psGo_plain (s : List Char) :
    ∀ (pre : List (Nat × Char)) (fuel : Nat) (it : List (Nat × Char)) (buf : List Char),
      (∀ p ∈ pre, p.2 ≠ '{' ∧ p.2 ≠ '}' ∧ p.2 ≠ '\\') →
      psGo s (pre.length + fuel) (pre ++ it) buf = psGo s fuel it (buf ++ pre.map Prod.snd)
  | [], fuel, it, buf, _ => by simp
  | (i, c) :: pre, fuel, it, buf, h => by
    obtain ⟨h1, h2, h3⟩ := h (i, c) (List.mem_cons_self _ _)
    have hlen : ((i, c) :: pre).length + fuel = (pre.length + fuel) + 1 := by
      simp; omega
    rw [hlen, List.cons_append]
    simp only [psGo]
    simp only [if_neg h3, if_neg h1, if_neg h2]
    rw [psGo_plain s pre fuel it (buf ++ [c]) (fun p hp => h p (List.mem_cons_of_mem _ hp))]
    simp

/-- `find_delimiter` finds nothing in a delimiter-free stretch. -/
theorem fd_none : ∀ (m : Nat) (kw : List Char), noDelims kw →
    find_delimiter (List.enumFrom m kw) = none
  | _, [], _ => rfl
  | m, c :: kw, h => by
    obtain ⟨h1, h2, h3, h4, h5⟩ := h c (List.mem_cons_self _ _)
    show find_delimiter ((m, c) :: List.enumFrom (m + 1) kw) = none
    simp only [find_delimiter]
    rw [if_neg (by simp [h1, h2, h3]), if_neg h5, if_neg h4]
    exact fd_none (m + 1) kw fun e he => h e (List.mem_cons_of_mem _ he)

theorem ef_snd_mem {p : Nat × Char} {n : Nat} {l : List Char}
    (hp : p ∈ List.enumFrom n l) : p.2 ∈ l := by
  have h2 : p.2 ∈ (List.enumFrom n l).map Prod.snd := List.mem_map_of_mem Prod.snd hp
  rwa [ef_map_snd] at h2

theorem ef_noSpecials {n : Nat} {l : List Char} (h : noSpecials l) :
    ∀ p ∈ List.enumFrom n l, p.2 ≠ '{' ∧ p.2 ≠ '}' ∧ p.2 ≠ '\\' :=
  fun p hp => h p.2 (ef_snd_mem hp)

/-- With no delimiter in sight, the `while !close_found` loop panics
("Close bracket not found"). -/
theorem paramLoop_none (s : List Char) (fuel : Nat) (it : List (Nat × Char)) (ao : Bool)
    (output : Option (List Char)) (start : Nat) (ch : Char) (buf : List Char)
    (h : find_delimiter it = none) :
    paramLoop s (fuel + 1) it ao output start ch buf = .panicked := by
  simp only [paramLoop, h]

/-- One `parse_string` step at a `{` opening a styling parameter: control
passes to `parse_param` with the character after the brace. -/
theorem psGo_open_param (s : List Char) (fuel j i2 : Nat) (c2 : Char)
    (it2 : List (Nat × Char)) (buf : List Char) (h1 : c2 ≠ '{') (h2 : c2 ≠ '}') :
    psGo s (fuel + 1) ((j, '{') :: (i2, c2) :: it2) buf
      = match parse_param c2 i2 s it2 buf with
        | .panicked => .panicked
        | .ok (buf2, it3) => psGo s fuel it3 buf2 := by
  show (if c2 = '{' then psGo s fuel it2 (buf ++ ['{', '{'])
        else if c2 = '}' then psGo s fuel it2 (buf ++ ['{', '}'])
        else match parse_param c2 i2 s it2 buf with
          | .panicked => .panicked
          | .ok (buf2, it3) => psGo s fuel it3 buf2) = _
  rw [if_neg h1, if_neg h2]

/-- A parameter whose first character is a directive delimiter, with no
further delimiter before end of input, makes `parse_param` panic. -/
theorem parse_param_directive_unclosed (d : Char) (i : Nat) (s : List Char)
    (it : List (Nat × Char)) (buf : List Char) (hd : d = '+' ∨ d = '-' ∨ d = '#')
    (h : find_delimiter it = none) :
    parse_param d i s it buf = .panicked := by
  have h1 := paramLoop_none s it.length it false none (i + 1) d (buf ++ ESCAPE) h
  simp [parse_param, if_pos hd, parse_param_after, h1]

/-- A parameter whose first character is not a directive delimiter, with no
delimiter before end of input, soft-fails: `parse_param` returns the buffer
plus the unconsumed suffix from the opening brace on. -/
theorem parse_param_value_unclosed (c : Char) (i : Nat) (s : List Char)
    (it : List (Nat × Char)) (buf : List Char)
    (hc : ¬(c = '+' ∨ c = '-' ∨ c = '#')) (h : find_delimiter it = none) :
    parse_param c i s it buf = .ok (buf ++ s.drop (i - 1), []) := by
  simp [parse_param, if_neg hc, h]

/-! ## Claim theorems on concrete inputs -/

/-- C1: the claim states that for every value expressible in both paths the
static escape text and the runtime `Color::write` encoding are
byte-identical, in particular for indexed and RGB parametric colors.  The
code violates this: the static parser encodes the indexed literal `#f[ff]`
as `38;5;255` and the RGB literal `#f(0,128,255)` as `38;2;0;128;255`,
while `Color::write` buffers `[38, 2, 255]` for `ByteFg(255)` and
`[38, 5, 0, 128, 255]` for `RgbFg(0,128,255)` — the 5/2 mode selectors are
swapped between the two paths (and `RgbFg`'s own doc comment `38;2;...`
contradicts the `[38, 5, ...]` the code writes). -/
theorem C1_parametric_color_paths_diverge :
    parse_color (lc "f[ff]") [] = .ok (lc "38;5;255", some ()) ∧
    renderCodes (Color.write (.ByteFg 255) []) = lc "38;2;255" ∧
    parse_color (lc "f(0,128,255)") [] = .ok (lc "38;2;0;128;255", some ()) ∧
    renderCodes (Color.write (.RgbFg 0 128 255) []) = lc "38;5;0;128;255" ∧
    renderCodes (Color.write (.ByteFg 255) []) ≠ lc "38;5;255" ∧
    renderCodes (Color.write (.RgbFg 0 128 255) []) ≠ lc "38;2;0;128;255" := by
  decide

/-- C3: the claim states that `\xHH` with two valid hex digits decodes to
the corresponding character.  The code violates this: `parse_7bit` slices
`s[end-2..=end]`, three characters beginning at the `x` itself, so
`u32::from_str_radix` always fails and `parse_string` returns `None` even
for the valid escape `\x41`; invalid digits also yield `None` as claimed. -/
theorem C3_x_escape_never_decodes :
    parse_string (lc "\\x41") = .ok none ∧
    parse_string (lc "\\x41") ≠ .ok (some (lc "A")) ∧
    parse_string (lc "\\xzz") = .ok none ∧
    parse_string (lc "\\x4") = .ok none := by
  decide

/-- C5: the claim states that a single `}` is copied through and the
character immediately after it is processed normally.  The code violates
the second half: the `}` arm consumes the following character with
`chars.next()` and, when it is not another `}`, drops it — `a}bc` parses to
`a}c`, losing the `b`. -/
theorem C5_stray_close_brace_drops_next_char :
    parse_string (lc "a\x7dbc") = .ok (some (lc "a\x7dc")) ∧
    parse_string (lc "a\x7dbc") ≠ .ok (some (lc "a\x7dbc")) := by
  decide

/-- C8: the claim states that `{+Bold#RedFg&name}` expands to a first
escape `1;31`, then the literal `{name}` placeholder, then a second escape.
The code violates this: `output` is captured only when the parameter begins
with a non-delimiter character, so for a directive-first parameter the
captured value is `None` at the `&` step and the placeholder (and the
second escape) are silently dropped — the whole parameter parses to just
`ESC[1;31m`, and `name` does not occur in the output at all. -/
theorem C8_embedded_value_placeholder_dropped :
    parse_string (lc "\x7b+Bold#RedFg&name\x7d") = .ok (some (lc "\x1b[1;31m")) ∧
    ¬ lc "name" <:+: lc "\x1b[1;31m" := by
  decide

/-- C2 counterexample: the claim asserts that any bracket content other
than a 2-hex-digit pair makes `parse_color` return `None`.  Two violations:
the content `+f` (a sign and one digit, not a 2-hex-digit pair) is accepted
by `u8::from_str_radix` and encodes successfully as `38;5;15`; and
multi-byte content panics instead of returning `None` — `f€x` panics at the
byte slice `&s[2..len-1]` (byte 2 is inside `€`), and `f[€€]` (interior
byte length 6) panics at the inner byte slice `&s[0..2]`. -/
theorem C2_counterexample :
    parse_color (lc "f[+f]") [] = .ok (lc "38;5;15", some ()) ∧
    parse_color (lc "f€x") [] = .panicked ∧
    parse_color ('f' :: '[' :: (lc "€€" ++ [']'])) [] = .panicked := by
  decide

/-- C4 counterexample: the claim asserts that text ending in `{+Bold` is
preserved as literal output without panicking, but `parse_param` panics
("Close bracket not found") once a styling directive has begun and no `}`
follows. -/
theorem C4_counterexample : parse_string (lc "\x7b+Bold") = .panicked := by
  decide

/-- C6 counterexample: the claim asserts that for both writers the
escape call resets the needs-separator flag; for `IoWriter` it does not —
after a second `escape`, the first code written still gets a `;`
separator, and `escape` leaves `first_write` untouched. -/
theorem C6_counterexample :
    (IoWriter.run ⟨[], true⟩ [.escape, .code 1, .escape, .code 4, .endw]).out
      = lc "\x1b[1\x1b[;4m" ∧
    (IoWriter.escape ⟨[], false⟩).first_write = false := by
  decide

/-! ## Universal claim theorems about the parser -/

/-- C9: on input containing no `{`, no `}`, and no backslash, `parse_string`
is the identity — every character takes the plain copy-through arm, and the
parse succeeds with the input unchanged. -/
theorem C9_plain_text_identity (s : List Char) (h : noSpecials s) :
    parse_string s = .ok (some s) := by
  have hms : s.enum.map Prod.snd = s := ef_map_snd 0 s
  have key := psGo_plain s s.enum 1 [] [] (ef_noSpecials h)
  simp only [List.append_nil, List.nil_append] at key
  show psGo s (s.length + 1) s.enum [] = .ok (some s)
  rw [show s.length + 1 = s.enum.length + 1 from by
        rw [show s.enum.length = s.length from ef_length 0 s]]
  rw [key, hms]
  rfl

/-- Witness for C9 at a concrete input. -/
theorem C9_plain_text_identity_witness :
    parse_string (lc "hello world") = .ok (some (lc "hello world")) :=
  C9_plain_text_identity (lc "hello world") (by decide)

/-- C10: when the scanner reaches a final backslash as an escape introducer
with nothing following it (here guaranteed by a brace- and backslash-free
prefix), `parse_string` aborts on the `expect` that unwraps the character
following the escape — it panics rather than returning `None` or passing
the backslash through. -/
theorem C10_trailing_escape_introducer_panics (pre : List Char) (h : noSpecials pre) :
    parse_string (pre ++ ['\\']) = .panicked := by
  show psGo (pre ++ ['\\']) ((pre ++ ['\\']).length + 1) (pre ++ ['\\']).enum [] = .panicked
  have he : (pre ++ ['\\']).enum
      = List.enumFrom 0 pre ++ [(pre.length, '\\')] := by
    show List.enumFrom 0 (pre ++ ['\\']) = _
    rw [ef_append 0 pre ['\\'], show (0 : Nat) + pre.length = pre.length from by omega]
    rfl
  have hlen : (pre ++ ['\\']).length + 1 = (List.enumFrom 0 pre).length + 2 := by
    rw [ef_length]
    simp
  rw [he, hlen, psGo_plain _ _ 2 _ [] (ef_noSpecials h)]
  rfl

/-- Witness for C10 at a concrete input. -/
theorem C10_trailing_escape_introducer_panics_witness :
    parse_string (lc "ab" ++ ['\\']) = .panicked :=
  C10_trailing_escape_introducer_panics (lc "ab") (by decide)

/-- C4 (amended): once a styling directive has begun (the character after
`{` is `+`, `-` or `#`) and no further delimiter occurs before end of
input, `parse_string` panics ("Close bracket not found"); only a parameter
begun without a styling delimiter soft-fails, preserving the opening brace
and everything after it as literal text without dropping characters. -/
theorem C4_amended_unterminated_brace :
    (∀ (pre kw : List Char) (d : Char), noSpecials pre →
      (d = '+' ∨ d = '-' ∨ d = '#') → noDelims kw →
      parse_string (pre ++ '{' :: d :: kw) = .panicked) ∧
    (∀ (pre rest : List Char) (c : Char), noSpecials pre →
      ¬(c = '+' ∨ c = '-' ∨ c = '#') → c ≠ '{' → c ≠ '}' → noDelims rest →
      parse_string (pre ++ '{' :: c :: rest) = .ok (some (pre ++ '{' :: c :: rest))) := by
  constructor
  · intro pre kw d hpre hd hkw
    have hd1 : d ≠ '\\' := by rcases hd with h | h | h <;> simp [h]
    have hd2 : d ≠ '{' := by rcases hd with h | h | h <;> simp [h]
    have hd3 : d ≠ '}' := by rcases hd with h | h | h <;> simp [h]
    show psGo (pre ++ '{' :: d :: kw) ((pre ++ '{' :: d :: kw).length + 1)
        (pre ++ '{' :: d :: kw).enum [] = .panicked
    have he : (pre ++ '{' :: d :: kw).enum
        = List.enumFrom 0 pre ++ (pre.length, '{') :: (pre.length + 1, d)
            :: List.enumFrom (pre.length + 2) kw := by
      show List.enumFrom 0 (pre ++ '{' :: d :: kw) = _
      rw [ef_append 0 pre ('{' :: d :: kw),
        show (0 : Nat) + pre.length = pre.length from by omega]
      rfl
    have hlen : (pre ++ '{' :: d :: kw).length + 1
        = (List.enumFrom 0 pre).length + (kw.length + 2 + 1) := by
      rw [ef_length]
      simp
      omega
    rw [he, hlen, psGo_plain _ _ (kw.length + 2 + 1) _ [] (ef_noSpecials hpre)]
    rw [List.nil_append, ef_map_snd]
    have hpp := parse_param_directive_unclosed d (pre.length + 1)
      (pre ++ '{' :: d :: kw) (List.enumFrom (pre.length + 2) kw) pre hd
      (fd_none (pre.length + 2) kw hkw)
    rw [psGo_open_param _ _ _ _ _ _ _ hd2 hd3, hpp]
  · intro pre rest c hpre hc hc1 hc2 hrest
    show psGo (pre ++ '{' :: c :: rest) ((pre ++ '{' :: c :: rest).length + 1)
        (pre ++ '{' :: c :: rest).enum [] = _
    have he : (pre ++ '{' :: c :: rest).enum
        = List.enumFrom 0 pre ++ (pre.length, '{') :: (pre.length + 1, c)
            :: List.enumFrom (pre.length + 2) rest := by
      show List.enumFrom 0 (pre ++ '{' :: c :: rest) = _
      rw [ef_append 0 pre ('{' :: c :: rest),
        show (0 : Nat) + pre.length = pre.length from by omega]
      rfl
    have hlen : (pre ++ '{' :: c :: rest).length + 1
        = (List.enumFrom 0 pre).length + (rest.length + 2 + 1) := by
      rw [ef_length]
      simp
      omega
    rw [he, hlen, psGo_plain _ _ (rest.length + 2 + 1) _ [] (ef_noSpecials hpre)]
    rw [List.nil_append, ef_map_snd]
    have hdrop : (pre ++ '{' :: c :: rest).drop (pre.length + 1 - 1) = '{' :: c :: rest := by
      rw [show pre.length + 1 - 1 = pre.length from by omega]
      exact drop_len_append pre ('{' :: c :: rest)
    have hpp := parse_param_value_unclosed c (pre.length + 1)
      (pre ++ '{' :: c :: rest) (List.enumFrom (pre.length + 2) rest) pre hc
      (fd_none (pre.length + 2) rest hrest)
    rw [hdrop] at hpp
    rw [psGo_open_param _ _ _ _ _ _ _ hc1 hc2, hpp]
    rfl

/-! ## Writer lemmas and the C6 claim -/

theorem inter_join (x : List Char) (xs : List (List Char)) :
    (List.intersperse (lc ";") (x :: xs)).flatten = x ++ (xs.map fun l => ';' :: l).flatten := by
  induction xs generalizing x with
  | nil => simp
  | cons y ys ih =>
    rw [List.intersperse_cons_cons]
    simp only [List.flatten_cons]
    rw [ih y]
    simp [lc]

theorem renderCodes_nil : renderCodes [] = [] := rfl

theorem renderCodes_cons (n : Nat) (rest : List Nat) :
    renderCodes (n :: rest)
      = (Nat.repr n).data ++ (rest.map fun k => ';' :: (Nat.repr k).data).flatten := by
  show (List.intersperse (lc ";") ((n :: rest).map fun k => (Nat.repr k).data)).flatten = _
  rw [List.map_cons, inter_join]
  simp [List.map_map, Function.comp_def]

/-- Tail of a builder run on a `FmtWriter` whose flag is already cleared:
every code is preceded by `;`. -/
theorem fmt_run_false : ∀ (codes : List Nat) (out : List Char),
    FmtWriter.run ⟨out, false⟩ (codes.map WCall.code ++ [.endw])
      = ⟨out ++ (codes.map fun n => ';' :: (Nat.repr n).data).flatten ++ [ENDCH], false⟩
  | [], out => by simp [FmtWriter.run, FmtWriter.endw]
  | n :: rest, out => by
    show FmtWriter.run (FmtWriter.wcode ⟨out, false⟩ n) (rest.map WCall.code ++ [.endw]) = _
    rw [show FmtWriter.wcode ⟨out, false⟩ n
        = ⟨out ++ [';'] ++ (Nat.repr n).data, false⟩ from rfl]
    rw [fmt_run_false rest (out ++ [';'] ++ (Nat.repr n).data)]
    simp

/-- A full `escape; write_code*; end` round on a `FmtWriter`: regardless of
the incoming flag, the output is the introducer, the `;`-separated codes,
and the terminator. -/
theorem fmt_run_escape (out : List Char) (b : Bool) (codes : List Nat) :
    (FmtWriter.run ⟨out, b⟩ (.escape :: codes.map WCall.code ++ [.endw])).out
      = out ++ ESCAPE ++ renderCodes codes ++ [ENDCH] := by
  show (FmtWriter.run ⟨out ++ ESCAPE, true⟩ (codes.map WCall.code ++ [.endw])).out = _
  cases codes with
  | nil => simp [FmtWriter.run, FmtWriter.endw, renderCodes_nil]
  | cons n rest =>
    show (FmtWriter.run (FmtWriter.wcode ⟨out ++ ESCAPE, true⟩ n)
        (rest.map WCall.code ++ [.endw])).out = _
    rw [show FmtWriter.wcode ⟨out ++ ESCAPE, true⟩ n
        = ⟨out ++ ESCAPE ++ (Nat.repr n).data, false⟩ from rfl]
    rw [fmt_run_false rest (out ++ ESCAPE ++ (Nat.repr n).data)]
    simp [renderCodes_cons]

theorem io_run_false : ∀ (codes : List Nat) (out : List Char),
    IoWriter.run ⟨out, false⟩ (codes.map WCall.code ++ [.endw])
      = ⟨out ++ (codes.map fun n => ';' :: (Nat.repr n).data).flatten ++ [ENDCH], false⟩
  | [], out => by simp [IoWriter.run, IoWriter.endw]
  | n :: rest, out => by
    show IoWriter.run (IoWriter.wcode ⟨out, false⟩ n) (rest.map WCall.code ++ [.endw]) = _
    rw [show IoWriter.wcode ⟨out, false⟩ n
        = ⟨out ++ [';'] ++ (Nat.repr n).data, false⟩ from rfl]
    rw [io_run_false rest (out ++ [';'] ++ (Nat.repr n).data)]
    simp

/-- A full `escape; write_code*; end` round on an `IoWriter` whose flag is
set when `escape` is issued. -/
theorem io_run_escape_true (out : List Char) (codes : List Nat) :
    (IoWriter.run ⟨out, true⟩ (.escape :: codes.map WCall.code ++ [.endw])).out
      = out ++ ESCAPE ++ renderCodes codes ++ [ENDCH] := by
  show (IoWriter.run ⟨out ++ ESCAPE, true⟩ (codes.map WCall.code ++ [.endw])).out = _
  cases codes with
  | nil => simp [IoWriter.run, IoWriter.endw, renderCodes_nil]
  | cons n rest =>
    show (IoWriter.run (IoWriter.wcode ⟨out ++ ESCAPE, true⟩ n)
        (rest.map WCall.code ++ [.endw])).out = _
    rw [show IoWriter.wcode ⟨out ++ ESCAPE, true⟩ n
        = ⟨out ++ ESCAPE ++ (Nat.repr n).data, false⟩ from rfl]
    rw [io_run_false rest (out ++ ESCAPE ++ (Nat.repr n).data)]
    simp [renderCodes_cons]

/-- C6 (amended): for `FmtWriter` the claim holds as stated — `escape`
resets the needs-separator flag, and an `escape; write_code*; end` round
produces the introducer, the `;`-separated codes, and the terminator, so
`open(); write_code(1); write_code(4); close()` yields exactly `ESC[1;4m`.
For `IoWriter`, `escape` leaves the flag unchanged (it is set only at
construction), so the same round is guaranteed to separate correctly only
when the flag is still set when `escape` is issued. -/
theorem C6_amended_separator_discipline :
    (∀ w : FmtWriter, (w.escape).first_write = true) ∧
    (∀ w : IoWriter, (w.escape).first_write = w.first_write) ∧
    (∀ (out : List Char) (b : Bool) (codes : List Nat),
      (FmtWriter.run ⟨out, b⟩ (.escape :: codes.map WCall.code ++ [.endw])).out
        = out ++ ESCAPE ++ renderCodes codes ++ [ENDCH]) ∧
    (∀ (out : List Char) (codes : List Nat),
      (IoWriter.run ⟨out, true⟩ (.escape :: codes.map WCall.code ++ [.endw])).out
        = out ++ ESCAPE ++ renderCodes codes ++ [ENDCH]) ∧
    (FmtWriter.new.run [.escape, .code 1, .code 4, .endw]).out = lc "\x1b[1;4m" := by
  refine ⟨fun w => rfl, fun w => rfl, fmt_run_escape, io_run_escape_true, ?_⟩
  decide

/-! ## Numeric and splitting lemmas for the color literal claim -/

set_option maxRecDepth 4000 in
theorem append_to_nil_eq_repr : ∀ n < 256, append_to n [] = (Nat.repr n).data := by
  decide

theorem append_to_append (n : Nat) (buf : List Char) :
    append_to n buf = buf ++ append_to n [] := by
  unfold append_to
  split_ifs <;> simp

theorem append_to_eq {n : Nat} (buf : List Char) (h : n < 256) :
    append_to n buf = buf ++ (Nat.repr n).data := by
  rw [append_to_append, append_to_nil_eq_repr n h]

theorem bind_bound {o : Option Nat} {mx n : Nat}
    (h : (o.bind fun v => if v ≤ mx then some v else none) = some n) : n ≤ mx := by
  cases o with
  | none => exact Option.noConfusion h
  | some v =>
    have h2 : (if v ≤ mx then some v else none) = some n := h
    by_cases hv : v ≤ mx
    · rw [if_pos hv] at h2
      cases h2
      exact hv
    · rw [if_neg hv] at h2
      cases h2

theorem rustParseUnsigned_le {radix mx : Nat} {l : List Char} {n : Nat}
    (h : rustParseUnsigned radix mx l = some n) : n ≤ mx := by
  unfold rustParseUnsigned at h
  split at h
  · cases h
  · exact bind_bound h
  · exact bind_bound h

/-- The folding step of `digitsVal` stays `none` once failed. -/
theorem foldl_digits_none (radix : Nat) : ∀ l : List Char,
    l.foldl (fun acc c => acc.bind fun a => (toDigit? radix c).map fun d => a * radix + d)
      none = none
  | [] => rfl
  | c :: l => by
    show (c :: l).foldl _ none = none
    rw [List.foldl_cons]
    exact foldl_digits_none radix l

/-- A successful digit fold means every character is a digit of the radix. -/
theorem foldl_digits_some (radix : Nat) : ∀ (l : List Char) (acc : Option Nat) (n : Nat),
    l.foldl (fun acc c => acc.bind fun a => (toDigit? radix c).map fun d => a * radix + d)
      acc = some n →
    ∀ c ∈ l, (toDigit? radix c).isSome
  | [], _, _, _ => by simp
  | c :: l, acc, n, h => by
    intro e he
    rw [List.foldl_cons] at h
    rcases List.mem_cons.mp he with rfl | he2
    · by_contra hnone
      rw [Option.not_isSome_iff_eq_none] at hnone
      rw [hnone] at h
      have hacc : (acc.bind fun a => (none : Option Nat).map fun d => a * radix + d) = none := by
        cases acc <;> rfl
      rw [hacc, foldl_digits_none radix l] at h
      cases h
    · exact foldl_digits_some radix l _ n h e he2

theorem toDigit_comma (radix : Nat) : toDigit? radix ',' = none := rfl

theorem digitsVal_mem {radix : Nat} {l : List Char} {n : Nat}
    (h : digitsVal radix l = some n) : ∀ c ∈ l, (toDigit? radix c).isSome := by
  unfold digitsVal at h
  split_ifs at h with he
  exact foldl_digits_some radix l (some 0) n h

theorem rustParse_no_comma {radix mx : Nat} {l : List Char} {n : Nat}
    (h : rustParseUnsigned radix mx l = some n) : ',' ∉ l := by
  intro hmem
  unfold rustParseUnsigned at h
  split at h
  · cases h
  · next rest =>
    rcases List.mem_cons.mp hmem with hc | hmem2
    · cases hc
    · rcases Option.bind_eq_some.mp h with ⟨v, hv, _⟩
      have := digitsVal_mem hv ',' hmem2
      rw [toDigit_comma] at this
      cases this
  · rcases Option.bind_eq_some.mp h with ⟨v, hv, _⟩
    have := digitsVal_mem hv ',' hmem
    rw [toDigit_comma] at this
    cases this

theorem rustParseU8_no_comma {radix : Nat} {l : List Char} {n : Nat}
    (h : rustParseU8 radix l = some n) : ',' ∉ l :=
  @rustParse_no_comma radix 255 l n h

theorem splitComma_no_comma : ∀ l : List Char, ',' ∉ l → splitComma l = [l]
  | [], _ => rfl
  | c :: l, h => by
    have hc : ¬c = ',' := fun e => h (e ▸ List.mem_cons_self c l)
    simp only [splitComma, if_neg hc,
      splitComma_no_comma l fun m => h (List.mem_cons_of_mem c m)]

theorem splitComma_append : ∀ (a r : List Char), ',' ∉ a →
    splitComma (a ++ ',' :: r) = a :: splitComma r
  | [], r, _ => by simp [splitComma]
  | c :: a, r, h => by
    have hc : ¬c = ',' := fun e => h (e ▸ List.mem_cons_self c a)
    show splitComma (c :: (a ++ ',' :: r)) = (c :: a) :: splitComma r
    simp only [splitComma, if_neg hc,
      splitComma_append a r fun m => h (List.mem_cons_of_mem c m)]

/-! ## Color literal encode lemmas and characterization (C2) -/

theorem parse_color_of_simple_none (seg : List Char) (buf : List Char)
    (h : parse_color_simple (String.mk seg) = none) :
    parse_color seg buf = parse_color_complex seg buf := by
  simp only [parse_color, h]

theorem parse_color_simple_fb {c0 : Char} (hm : c0 = 'f' ∨ c0 = 'b') (r : List Char) :
    parse_color_simple (String.mk (c0 :: r)) = none := by
  rcases hm with rfl | rfl <;> simp [parse_color_simple, String.ext_iff]

theorem utf8Len_nil : utf8Len [] = 0 := rfl

theorem utf8Len_cons (c : Char) (l : List Char) :
    utf8Len (c :: l) = c.utf8Size + utf8Len l := by
  simp [utf8Len]

theorem utf8Len_append (a b : List Char) :
    utf8Len (a ++ b) = utf8Len a + utf8Len b := by
  simp [utf8Len]

theorem utf8Len_eq_zero : ∀ {l : List Char}, utf8Len l = 0 → l = []
  | [], _ => rfl
  | c :: l, h => by
    rw [utf8Len_cons] at h
    have := Char.utf8Size_pos c
    omega

theorem utf8Len_eq_one : ∀ {l : List Char}, utf8Len l = 1 → ∃ x, l = [x] ∧ x.utf8Size = 1
  | [], h => by simp [utf8Len] at h
  | c :: l, h => by
    rw [utf8Len_cons] at h
    have h1 := Char.utf8Size_pos c
    have h2 : c.utf8Size = 1 ∧ utf8Len l = 0 := by omega
    exact ⟨c, by rw [utf8Len_eq_zero h2.2], h2.1⟩

theorem char_le_toNat {c d : Char} (h : c ≤ d) : c.toNat ≤ d.toNat :=
  BitVec.le_def.mp (UInt32.le_def.mp (Char.le_def.mp h))

theorem ascii_utf8Size {c : Char} (h : c.toNat < 128) : c.utf8Size = 1 := by
  unfold Char.utf8Size
  rw [if_pos]
  exact UInt32.le_def.mpr (BitVec.le_def.mpr (Nat.le_of_lt_succ h))

theorem toDigit?_ascii {radix : Nat} {c : Char} (h : (toDigit? radix c).isSome) :
    c.toNat < 128 := by
  unfold toDigit? at h
  simp only [] at h
  split_ifs at h with h1 h2 h3
  · have := char_le_toNat h1.2
    have h9 : ('9').toNat = 57 := rfl
    omega
  · have := char_le_toNat h2.2
    have hz : ('z').toNat = 122 := rfl
    omega
  · have := char_le_toNat h3.2
    have hZ : ('Z').toNat = 90 := rfl
    omega
  · simp at h

theorem rustParse_ascii {radix mx : Nat} {l : List Char} {n : Nat}
    (h : rustParseUnsigned radix mx l = some n) : ∀ c ∈ l, c.utf8Size = 1 := by
  intro c hc
  unfold rustParseUnsigned at h
  split at h
  · cases h
  · next rest =>
    rcases List.mem_cons.mp hc with rfl | hm
    · exact ascii_utf8Size (by decide)
    · rcases Option.bind_eq_some.mp h with ⟨v, hv, _⟩
      exact ascii_utf8Size (toDigit?_ascii (digitsVal_mem hv c hm))
  · rcases Option.bind_eq_some.mp h with ⟨v, hv, _⟩
    exact ascii_utf8Size (toDigit?_ascii (digitsVal_mem hv c hc))

theorem rustParseU8_ascii {radix : Nat} {l : List Char} {n : Nat}
    (h : rustParseU8 radix l = some n) : ∀ c ∈ l, c.utf8Size = 1 :=
  @rustParse_ascii radix 255 l n h

theorem utf8Len_of_ascii : ∀ {l : List Char}, (∀ c ∈ l, c.utf8Size = 1) → utf8Len l = l.length
  | [], _ => rfl
  | c :: l, h => by
    rw [utf8Len_cons, h c (List.mem_cons_self c l),
      utf8Len_of_ascii fun e he => h e (List.mem_cons_of_mem c he), List.length_cons]
    omega

theorem dropBytes_zero : ∀ l : List Char, dropBytes l 0 = .ok l
  | [] => rfl
  | _ :: _ => rfl

theorem takeBytes_zero : ∀ l : List Char, takeBytes l 0 = .ok []
  | [] => rfl
  | _ :: _ => rfl

theorem dropBytes_cons (c : Char) (l : List Char) (k : Nat) :
    dropBytes (c :: l) (k + 1) =
      if c.utf8Size ≤ k + 1 then dropBytes l (k + 1 - c.utf8Size) else .panicked := rfl

theorem takeBytes_cons (c : Char) (l : List Char) (k : Nat) :
    takeBytes (c :: l) (k + 1) =
      if c.utf8Size ≤ k + 1 then
        match takeBytes l (k + 1 - c.utf8Size) with
        | .ok r => PRes.ok (c :: r)
        | .panicked => PRes.panicked
      else .panicked := rfl

theorem dropBytes_ok : ∀ (l : List Char) (k : Nat) (u : List Char),
    dropBytes l k = .ok u → ∃ t, l = t ++ u ∧ utf8Len t = k
  | l, 0, u, h => by
    rw [dropBytes_zero] at h
    injection h with h2
    exact ⟨[], by rw [h2]; rfl, rfl⟩
  | [], _ + 1, u, h => by cases h
  | c :: l, k + 1, u, h => by
    simp only [dropBytes] at h
    split_ifs at h with hsz
    · obtain ⟨t, ht, hlen⟩ := dropBytes_ok l (k + 1 - c.utf8Size) u h
      exact ⟨c :: t, by rw [List.cons_append, ht], by rw [utf8Len_cons, hlen]; omega⟩

theorem takeBytes_ok : ∀ (l : List Char) (k : Nat) (t : List Char),
    takeBytes l k = .ok t → ∃ u, l = t ++ u ∧ utf8Len t = k
  | l, 0, t, h => by
    rw [takeBytes_zero] at h
    injection h with h2
    exact ⟨l, by rw [← h2]; rfl, by rw [← h2]; rfl⟩
  | [], _ + 1, t, h => by cases h
  | c :: l, k + 1, t, h => by
    simp only [takeBytes] at h
    split_ifs at h with hsz
    · cases htk : takeBytes l (k + 1 - c.utf8Size) with
      | panicked => rw [htk] at h; cases h
      | ok r =>
        rw [htk] at h
        injection h with h2
        obtain ⟨u, hu, hlen⟩ := takeBytes_ok l (k + 1 - c.utf8Size) r htk
        exact ⟨u, by rw [← h2, List.cons_append, hu],
          by rw [← h2, utf8Len_cons, hlen]; omega⟩

theorem takeBytes_append : ∀ (l r : List Char), takeBytes (l ++ r) (utf8Len l) = .ok l
  | [], r => takeBytes_zero r
  | c :: l, r => by
    have hpos := Char.utf8Size_pos c
    obtain ⟨m, hm⟩ : ∃ m, utf8Len (c :: l) = m + 1 :=
      ⟨utf8Len (c :: l) - 1, by rw [utf8Len_cons]; omega⟩
    rw [show (c :: l) ++ r = c :: (l ++ r) from rfl, hm]
    show takeBytes (c :: (l ++ r)) (m + 1) = .ok (c :: l)
    simp only [takeBytes]
    rw [if_pos (by rw [utf8Len_cons] at hm; omega),
      show m + 1 - c.utf8Size = utf8Len l from by rw [utf8Len_cons] at hm; omega,
      takeBytes_append l r]

theorem byteSlice_ok {s : List Char} {a b : Nat} {r : List Char}
    (h : byteSlice s a b = .ok r) :
    ∃ t u, s = t ++ (r ++ u) ∧ utf8Len t = a ∧ utf8Len r = b - a := by
  unfold byteSlice at h
  split_ifs at h with hab
  cases hd : dropBytes s a with
  | panicked => rw [hd] at h; cases h
  | ok m =>
    rw [hd] at h
    obtain ⟨t, ht, hlt⟩ := dropBytes_ok s a m hd
    obtain ⟨u, hu, hlr⟩ := takeBytes_ok m (b - a) r h
    exact ⟨t, u, by rw [ht, hu], hlt, hlr⟩

theorem dropBytes_ascii : ∀ (l : List Char) (k : Nat), (∀ c ∈ l, c.utf8Size = 1) →
    k ≤ l.length → dropBytes l k = .ok (l.drop k)
  | l, 0, _, _ => by rw [List.drop_zero, dropBytes_zero]
  | [], k + 1, _, hk => absurd hk (Nat.not_succ_le_zero k)
  | c :: l, k + 1, h, hk => by
    have hc : c.utf8Size = 1 := h c (List.mem_cons_self c l)
    rw [dropBytes_cons, hc, if_pos (by omega), show k + 1 - 1 = k from by omega,
      dropBytes_ascii l k (fun e he => h e (List.mem_cons_of_mem c he))
        (by simp at hk; omega)]
    rfl

theorem takeBytes_ascii : ∀ (l : List Char) (k : Nat), (∀ c ∈ l, c.utf8Size = 1) →
    k ≤ l.length → takeBytes l k = .ok (l.take k)
  | l, 0, _, _ => by rw [List.take_zero, takeBytes_zero]
  | [], k + 1, _, hk => absurd hk (Nat.not_succ_le_zero k)
  | c :: l, k + 1, h, hk => by
    have hc : c.utf8Size = 1 := h c (List.mem_cons_self c l)
    rw [takeBytes_cons, hc, if_pos (by omega), show k + 1 - 1 = k from by omega,
      takeBytes_ascii l k (fun e he => h e (List.mem_cons_of_mem c he))
        (by simp at hk; omega)]
    rfl

theorem byteSlice_ascii (l : List Char) (a b : Nat) (h : ∀ c ∈ l, c.utf8Size = 1)
    (hab : a ≤ b) (hb : b ≤ l.length) :
    byteSlice l a b = .ok ((l.drop a).take (b - a)) := by
  unfold byteSlice
  rw [if_pos hab, dropBytes_ascii l a h (le_trans hab hb)]
  exact takeBytes_ascii (l.drop a) (b - a)
    (fun c hc => h c (List.mem_of_mem_drop hc))
    (by rw [List.length_drop]; omega)

theorem byteSlice_inner {c0 left right : Char} (inner : List Char)
    (h0 : c0.utf8Size = 1) (hl : left.utf8Size = 1) (hr : right.utf8Size = 1) :
    byteSlice (c0 :: left :: (inner ++ [right])) 2
      (utf8Len (c0 :: left :: (inner ++ [right])) - 1) = .ok inner := by
  have hlen : utf8Len (c0 :: left :: (inner ++ [right])) = utf8Len inner + 3 := by
    rw [utf8Len_cons, utf8Len_cons, utf8Len_append, utf8Len_cons, utf8Len_nil, h0, hl, hr]
    omega
  unfold byteSlice
  rw [if_pos (by omega)]
  have hdrop : dropBytes (c0 :: left :: (inner ++ [right])) 2 = .ok (inner ++ [right]) := by
    rw [show (2 : Nat) = 1 + 1 from rfl, dropBytes_cons, h0, if_pos (by omega),
      show 1 + 1 - 1 = 0 + 1 from rfl, dropBytes_cons, hl, if_pos (by omega),
      show 0 + 1 - 1 = 0 from rfl, dropBytes_zero]
  rw [hdrop, hlen, show utf8Len inner + 3 - 1 - 2 = utf8Len inner from by omega]
  exact takeBytes_append inner [right]

theorem prefix_eq_utf8Len : ∀ {t1 t2 u1 u2 : List Char},
    t1 ++ u1 = t2 ++ u2 → utf8Len t1 = utf8Len t2 → t1 = t2
  | [], t2, u1, u2, h, hlen => by
    have h0 : utf8Len t2 = 0 := by rw [← hlen]; rfl
    rw [utf8Len_eq_zero h0]
  | c :: t1, [], u1, u2, h, hlen => by
    have h0 : utf8Len (c :: t1) = 0 := by rw [hlen]; rfl
    rw [utf8Len_cons] at h0
    have := Char.utf8Size_pos c
    omega
  | c :: t1, c2 :: t2, u1, u2, h, hlen => by
    injection h with hc ht
    subst hc
    rw [utf8Len_cons, utf8Len_cons] at hlen
    rw [prefix_eq_utf8Len ht (by omega)]

theorem parse_color_complex_fb {c0 : Char} (hm : c0 = 'f' ∨ c0 = 'b')
    (rest : List Char) (buf : List Char) :
    parse_color_complex (c0 :: rest) buf
      = parse_color_rest (c0 :: rest) (buf ++ (if c0 = 'f' then lc "38;" else lc "48;")) rest := by
  simp only [parse_color_complex, if_pos hm]

theorem parse_color_rest_concat (s : List Char) (buf : List Char) (left : Char)
    (inner : List Char) (right : Char)
    (hbs : byteSlice s 2 (utf8Len s - 1) = .ok inner) :
    parse_color_rest s buf (left :: (inner ++ [right]))
      = parse_color_body buf left right inner := by
  show (match (inner ++ [right]).getLast? with
        | none => (.ok (buf, none) : PRes (List Char × Option Unit))
        | some r2 =>
          match byteSlice s 2 (utf8Len s - 1) with
          | .panicked => .panicked
          | .ok inner2 => parse_color_body buf left r2 inner2) = _
  rw [List.getLast?_concat, hbs]

theorem parse_color_fb_concat {c0 : Char} (hm : c0 = 'f' ∨ c0 = 'b') (left : Char)
    (inner : List Char) (right : Char) (buf : List Char)
    (hl : left.utf8Size = 1) (hr : right.utf8Size = 1) :
    parse_color (c0 :: left :: (inner ++ [right])) buf
      = parse_color_body (buf ++ (if c0 = 'f' then lc "38;" else lc "48;")) left right inner := by
  have h0 : c0.utf8Size = 1 := by rcases hm with rfl | rfl <;> decide
  rw [parse_color_of_simple_none (c0 :: left :: (inner ++ [right])) buf
      (parse_color_simple_fb hm (left :: (inner ++ [right]))),
    parse_color_complex_fb hm (left :: (inner ++ [right])) buf,
    parse_color_rest_concat _ _ left inner right (byteSlice_inner inner h0 hl hr)]

theorem parse_color_paren_single (c0 : Char) (hm : c0 = 'f' ∨ c0 = 'b') {l : List Char}
    {n : Nat} (hn : rustParseU8 10 l = some n) (buf : List Char) :
    parse_color (c0 :: '(' :: (l ++ [')'])) buf
      = .ok (buf ++ (if c0 = 'f' then lc "38;" else lc "48;") ++ lc "5;" ++ (Nat.repr n).data,
          some ()) := by
  have hnc : ',' ∉ l := rustParseU8_no_comma hn
  have hle : n < 256 := Nat.lt_succ_of_le (rustParseUnsigned_le hn)
  rw [parse_color_fb_concat hm '(' l ')' buf (by decide) (by decide),
    parse_color_body, if_pos ⟨rfl, rfl⟩]
  rw [parse_color_paren, splitComma_no_comma l hnc]
  simp only [collectU8, hn, Option.map_some']
  rw [append_to_eq _ hle]

theorem parse_color_paren_triple (c0 : Char) (hm : c0 = 'f' ∨ c0 = 'b') {a b c : List Char}
    {n1 n2 n3 : Nat} (h1 : rustParseU8 10 a = some n1) (h2 : rustParseU8 10 b = some n2)
    (h3 : rustParseU8 10 c = some n3) (buf : List Char) :
    parse_color (c0 :: '(' :: ((a ++ ',' :: (b ++ ',' :: c)) ++ [')'])) buf
      = .ok (buf ++ (if c0 = 'f' then lc "38;" else lc "48;") ++ lc "2;" ++ (Nat.repr n1).data
          ++ [';'] ++ (Nat.repr n2).data ++ [';'] ++ (Nat.repr n3).data, some ()) := by
  have ha : ',' ∉ a := rustParseU8_no_comma h1
  have hb : ',' ∉ b := rustParseU8_no_comma h2
  have hc : ',' ∉ c := rustParseU8_no_comma h3
  have hl1 : n1 < 256 := Nat.lt_succ_of_le (rustParseUnsigned_le h1)
  have hl2 : n2 < 256 := Nat.lt_succ_of_le (rustParseUnsigned_le h2)
  have hl3 : n3 < 256 := Nat.lt_succ_of_le (rustParseUnsigned_le h3)
  rw [parse_color_fb_concat hm '(' (a ++ ',' :: (b ++ ',' :: c)) ')' buf
      (by decide) (by decide),
    parse_color_body, if_pos ⟨rfl, rfl⟩]
  rw [parse_color_paren, splitComma_append a _ ha, splitComma_append b _ hb,
    splitComma_no_comma c hc]
  simp only [collectU8, h1, h2, h3, Option.map_some']
  rw [append_to_eq _ hl1, append_to_eq _ hl2, append_to_eq _ hl3]

theorem parse_color_hex_two (c0 : Char) (hm : c0 = 'f' ∨ c0 = 'b') {l : List Char}
    {n : Nat} (hlen : l.length = 2) (hn : rustParseU8 16 l = some n) (buf : List Char) :
    parse_color (c0 :: '[' :: (l ++ [']'])) buf
      = .ok (buf ++ (if c0 = 'f' then lc "38;" else lc "48;") ++ lc "5;" ++ (Nat.repr n).data,
          some ()) := by
  have hle : n < 256 := Nat.lt_succ_of_le (rustParseUnsigned_le hn)
  have hul : utf8Len l = 2 := by
    rw [utf8Len_of_ascii (rustParseU8_ascii hn)]
    exact hlen
  rw [parse_color_fb_concat hm '[' l ']' buf (by decide) (by decide),
    parse_color_body, if_neg (by decide), if_pos ⟨rfl, rfl⟩]
  simp only [parse_color_hex, if_pos hul, hn]
  rw [append_to_eq _ hle]

theorem parse_color_hex_six (c0 : Char) (hm : c0 = 'f' ∨ c0 = 'b') {l : List Char}
    {n1 n2 n3 : Nat} (hlen : l.length = 6)
    (h1 : rustParseU8 16 (l.take 2) = some n1)
    (h2 : rustParseU8 16 ((l.drop 2).take 2) = some n2)
    (h3 : rustParseU8 16 ((l.drop 4).take 2) = some n3) (buf : List Char) :
    parse_color (c0 :: '[' :: (l ++ [']'])) buf
      = .ok (buf ++ (if c0 = 'f' then lc "38;" else lc "48;") ++ lc "2;" ++ (Nat.repr n1).data
          ++ [';'] ++ (Nat.repr n2).data ++ [';'] ++ (Nat.repr n3).data, some ()) := by
  have hl1 : n1 < 256 := Nat.lt_succ_of_le (rustParseUnsigned_le h1)
  have hl2 : n2 < 256 := Nat.lt_succ_of_le (rustParseUnsigned_le h2)
  have hl3 : n3 < 256 := Nat.lt_succ_of_le (rustParseUnsigned_le h3)
  have hd42 : (l.drop 4).take 2 = l.drop 4 :=
    List.take_of_length_le (by rw [List.length_drop]; omega)
  have hall : ∀ c ∈ l, c.utf8Size = 1 := by
    intro c hc
    have h24 : (l.drop 2).drop 2 = l.drop 4 := by
      rw [List.drop_drop]
    have hdecomp : l = l.take 2 ++ ((l.drop 2).take 2 ++ (l.drop 4)) := by
      rw [← h24, List.take_append_drop, List.take_append_drop]
    rw [hdecomp] at hc
    rcases List.mem_append.mp hc with h1c | hc2
    · exact rustParseU8_ascii h1 c h1c
    · rcases List.mem_append.mp hc2 with h2c | h3c
      · exact rustParseU8_ascii h2 c h2c
      · exact rustParseU8_ascii h3 c (by rw [hd42]; exact h3c)
  have hul : utf8Len l = 6 := by
    rw [utf8Len_of_ascii hall]
    exact hlen
  rw [parse_color_fb_concat hm '[' l ']' buf (by decide) (by decide),
    parse_color_body, if_neg (by decide), if_pos ⟨rfl, rfl⟩]
  simp only [parse_color_hex, if_neg (by rw [hul]; decide : ¬utf8Len l = 2), if_pos hul,
    byteSlice_ascii l 0 2 hall (by omega) (by omega),
    byteSlice_ascii l 2 4 hall (by omega) (by omega),
    byteSlice_ascii l 4 6 hall (by omega) (by omega),
    List.drop_zero, show (2 : Nat) - 0 = 2 from rfl, show (4 : Nat) - 2 = 2 from rfl,
    show (6 : Nat) - 4 = 2 from rfl, h1, h2, h3]
  rw [append_to_eq _ hl1, append_to_eq _ hl2, append_to_eq _ hl3]


def joinComma : List (List Char) → List Char
  | [] => []
  | [p] => p
  | p :: rest => p ++ ',' :: joinComma rest

theorem joinComma_cons_cons (p q : List Char) (t : List (List Char)) :
    joinComma (p :: q :: t) = p ++ ',' :: joinComma (q :: t) := rfl

theorem splitComma_ne_nil : ∀ l : List Char, splitComma l ≠ []
  | [] => by simp [splitComma]
  | c :: l => by
    by_cases hc : c = ','
    · simp [splitComma, hc]
    · simp only [splitComma, if_neg hc]
      cases hs : splitComma l with
      | nil => simp
      | cons h t => simp

theorem joinComma_splitComma : ∀ l : List Char, joinComma (splitComma l) = l
  | [] => rfl
  | c :: l => by
    by_cases hc : c = ','
    · subst hc
      have hstep : splitComma (',' :: l) = [] :: splitComma l := by
        simp [splitComma]
      rw [hstep]
      have ihl := joinComma_splitComma l
      cases hs : splitComma l with
      | nil => exact absurd hs (splitComma_ne_nil l)
      | cons h t =>
        rw [hs] at ihl
        rw [joinComma_cons_cons, ihl]
        rfl
    · simp only [splitComma, if_neg hc]
      cases hs : splitComma l with
      | nil => exact absurd hs (splitComma_ne_nil l)
      | cons h t =>
        have := joinComma_splitComma l
        rw [hs] at this
        cases t with
        | nil =>
          show (c :: h) = c :: l
          rw [← this]
          rfl
        | cons q t2 =>
          show (c :: h) ++ ',' :: joinComma (q :: t2) = c :: l
          rw [← this, joinComma_cons_cons]
          rfl

theorem collectU8_eq_cons : ∀ {ps : List (List Char)} {n : Nat} {ns : List Nat},
    collectU8 ps = some (n :: ns) →
    ∃ p rest, ps = p :: rest ∧ rustParseU8 10 p = some n ∧ collectU8 rest = some ns
  | [], n, ns, h => by simp [collectU8] at h
  | p :: rest, n, ns, h => by
    simp only [collectU8] at h
    cases hp : rustParseU8 10 p with
    | none => rw [hp] at h; cases h
    | some m =>
      rw [hp] at h
      cases hr : collectU8 rest with
      | none => rw [hr] at h; cases h
      | some ms =>
        rw [hr] at h
        simp at h
        obtain ⟨rfl, rfl⟩ := h
        exact ⟨p, rest, rfl, hp, hr⟩

theorem collectU8_eq_nil : ∀ {ps : List (List Char)}, collectU8 ps = some [] → ps = []
  | [], _ => rfl
  | p :: rest, h => by
    simp only [collectU8] at h
    cases hp : rustParseU8 10 p with
    | none => rw [hp] at h; cases h
    | some m =>
      rw [hp] at h
      cases hr : collectU8 rest with
      | none => rw [hr] at h; cases h
      | some ms => rw [hr] at h; simp at h

/-- "Numeric content" for a parenthesized decimal arm, per Rust parsing. -/
def ParenOk (inner : List Char) : Prop :=
  (∃ n, rustParseU8 10 inner = some n) ∨
  (∃ a b c, inner = a ++ ',' :: (b ++ ',' :: c) ∧ (∃ n, rustParseU8 10 a = some n) ∧
    (∃ n, rustParseU8 10 b = some n) ∧ (∃ n, rustParseU8 10 c = some n))

/-- "Numeric content" for a bracketed hexadecimal arm, per Rust parsing. -/
def HexOk (inner : List Char) : Prop :=
  (inner.length = 2 ∧ ∃ n, rustParseU8 16 inner = some n) ∨
  (inner.length = 6 ∧ (∃ n, rustParseU8 16 (inner.take 2) = some n) ∧
    (∃ n, rustParseU8 16 ((inner.drop 2).take 2) = some n) ∧
    (∃ n, rustParseU8 16 ((inner.drop 4).take 2) = some n))

/-- A well-formed parametric color literal per the (amended) claim. -/
def GoodColorLit (s : List Char) : Prop :=
  ∃ m body, s = m :: body ∧ (m = 'f' ∨ m = 'b') ∧
    ((∃ inner, body = '(' :: (inner ++ [')']) ∧ ParenOk inner) ∨
     (∃ inner, body = '[' :: (inner ++ [']']) ∧ HexOk inner))

theorem parse_color_fb_some_good {c0 : Char} (hm : c0 = 'f' ∨ c0 = 'b')
    (r : List Char) (buf : List Char) {out : List Char}
    (h : parse_color (c0 :: r) buf = .ok (out, some ())) : GoodColorLit (c0 :: r) := by
  have h0 : c0.utf8Size = 1 := by rcases hm with rfl | rfl <;> decide
  rw [parse_color_of_simple_none _ _ (parse_color_simple_fb hm r),
    parse_color_complex_fb hm r buf] at h
  set buf2 := buf ++ (if c0 = 'f' then lc "38;" else lc "48;") with hbuf2
  cases r with
  | nil => simp [parse_color_rest] at h
  | cons left rest2 =>
    show GoodColorLit (c0 :: left :: rest2)
    have hres : parse_color_rest (c0 :: left :: rest2) buf2 (left :: rest2)
        = match rest2.getLast? with
          | none => (.ok (buf2, none) : PRes (List Char × Option Unit))
          | some right =>
            match byteSlice (c0 :: left :: rest2) 2 (utf8Len (c0 :: left :: rest2) - 1) with
            | .panicked => .panicked
            | .ok inner => parse_color_body buf2 left right inner := rfl
    rw [hres] at h
    cases hlast : rest2.getLast? with
    | none =>
      rw [hlast] at h
      simp at h
    | some right =>
      rw [hlast] at h
      have hne : rest2 ≠ [] := by
        intro e
        rw [e] at hlast
        cases hlast
      cases hbs : byteSlice (c0 :: left :: rest2) 2 (utf8Len (c0 :: left :: rest2) - 1) with
      | panicked =>
        rw [hbs] at h
        cases h
      | ok inner =>
        rw [hbs] at h
        replace h : parse_color_body buf2 left right inner = .ok (out, some ()) := h
        obtain ⟨t, u, hsu, hlt, hli⟩ := byteSlice_ok hbs
        obtain ⟨hleft1, hrest⟩ : left.utf8Size = 1 ∧ rest2 = inner ++ u := by
          rcases t with _ | ⟨x, _ | ⟨y, t2⟩⟩
          · rw [utf8Len_nil] at hlt
            exact absurd hlt (by decide)
          · injection hsu with hx hr2
            subst hx
            rw [utf8Len_cons, utf8Len_nil, h0] at hlt
            exact absurd hlt (by decide)
          · injection hsu with hx hsu2
            injection hsu2 with hy hsu3
            subst hx
            subst hy
            rw [utf8Len_cons, utf8Len_cons, h0] at hlt
            have hyp := Char.utf8Size_pos left
            have hszp := Char.utf8Size_pos left
            have hy1 : left.utf8Size = 1 := by omega
            have ht20 : utf8Len t2 = 0 := by omega
            rw [utf8Len_eq_zero ht20] at hsu3
            exact ⟨hy1, by rw [hsu3]; rfl⟩
        have hlen2 : utf8Len rest2 = utf8Len inner + utf8Len u := by
          rw [hrest, utf8Len_append]
        have hs2 : utf8Len (c0 :: left :: rest2) = 2 + utf8Len rest2 := by
          rw [utf8Len_cons, utf8Len_cons, h0, hleft1]
          omega
        have hr2nz : utf8Len rest2 ≠ 0 := fun e => hne (utf8Len_eq_zero e)
        have hu1 : utf8Len u = 1 := by
          rw [hs2] at hli
          omega
        obtain ⟨x, hxu, hx1⟩ := utf8Len_eq_one hu1
        rw [hxu] at hrest
        have hxr : x = right := by
          rw [hrest, List.getLast?_concat] at hlast
          exact Option.some_injective Char hlast
        rw [hxr] at hrest
        by_cases hparen : left = '(' ∧ right = ')'
        · unfold parse_color_body at h
          rw [if_pos hparen] at h
          injection h with hp
          replace h : (parse_color_paren buf2 inner).2 = some () := by rw [hp]
          unfold parse_color_paren at h
          cases hcol : collectU8 (splitComma inner) with
          | none =>
            rw [hcol] at h
            cases h
          | some parts =>
            rw [hcol] at h
            match parts, h with
            | [n], h =>
              obtain ⟨p, prest, hsplit, hpv, hnil⟩ := collectU8_eq_cons hcol
              have hrest_nil : prest = [] := collectU8_eq_nil hnil
              have hps : splitComma inner = [p] := by rw [hsplit, hrest_nil]
              have hip : inner = p := by
                have hj := joinComma_splitComma inner
                rw [hps] at hj
                exact hj.symm
              exact ⟨c0, left :: rest2, rfl, hm,
                Or.inl ⟨inner, by rw [hparen.1, hrest, hparen.2],
                  Or.inl ⟨n, by rw [hip]; exact hpv⟩⟩⟩
            | [n1, n2, n3], h =>
              obtain ⟨a, r1, hps1, hpa, hc1⟩ := collectU8_eq_cons hcol
              obtain ⟨b, r2, hps2, hpb, hc2⟩ := collectU8_eq_cons hc1
              obtain ⟨c, r3, hps3, hpc, hc3⟩ := collectU8_eq_cons hc2
              have hr3nil : r3 = [] := collectU8_eq_nil hc3
              have hsp : splitComma inner = [a, b, c] := by
                rw [hps1, hps2, hps3, hr3nil]
              have hip : inner = a ++ ',' :: (b ++ ',' :: c) := by
                have hj := joinComma_splitComma inner
                rw [hsp] at hj
                rw [← hj]
                rfl
              exact ⟨c0, left :: rest2, rfl, hm,
                Or.inl ⟨inner, by rw [hparen.1, hrest, hparen.2],
                  Or.inr ⟨a, b, c, hip, ⟨n1, hpa⟩, ⟨n2, hpb⟩, ⟨n3, hpc⟩⟩⟩⟩
            | [], h => cases h
            | [x, y], h => cases h
            | x :: y :: z :: w :: t, h => cases h
        · by_cases hhex : left = '[' ∧ right = ']'
          · unfold parse_color_body at h
            rw [if_neg hparen, if_pos hhex] at h
            by_cases hl2 : utf8Len inner = 2
            · unfold parse_color_hex at h
              rw [if_pos hl2] at h
              cases hp : rustParseU8 16 inner with
              | none =>
                rw [hp] at h
                simp at h
              | some n =>
                have hlen : inner.length = 2 := by
                  rw [← utf8Len_of_ascii (rustParseU8_ascii hp)]
                  exact hl2
                exact ⟨c0, left :: rest2, rfl, hm,
                  Or.inr ⟨inner, by rw [hhex.1, hrest, hhex.2], Or.inl ⟨hlen, n, hp⟩⟩⟩
            · by_cases hl6 : utf8Len inner = 6
              · unfold parse_color_hex at h
                rw [if_neg hl2, if_pos hl6] at h
                cases hbs1 : byteSlice inner 0 2 with
                | panicked =>
                  simp only [hbs1] at h
                  cases h
                | ok p1 =>
                  simp only [hbs1] at h
                  cases hp1 : rustParseU8 16 p1 with
                  | none =>
                    simp [hp1] at h
                  | some n1 =>
                    simp only [hp1] at h
                    obtain ⟨t1, u1, hd1, hlt1, hlp1⟩ := byteSlice_ok hbs1
                    rw [utf8Len_eq_zero hlt1, List.nil_append] at hd1
                    have hp1a := rustParseU8_ascii hp1
                    have hp1l : p1.length = 2 := by
                      have := utf8Len_of_ascii hp1a
                      omega
                    have htake1 : inner.take 2 = p1 := by
                      rw [hd1, ← hp1l, List.take_left]
                    cases hbs2 : byteSlice inner 2 4 with
                    | panicked =>
                      simp only [hbs2] at h
                      cases h
                    | ok p2 =>
                      simp only [hbs2] at h
                      cases hp2 : rustParseU8 16 p2 with
                      | none =>
                        simp [hp2] at h
                      | some n2 =>
                        simp only [hp2] at h
                        obtain ⟨t2, u2, hd2, hlt2, hlp2⟩ := byteSlice_ok hbs2
                        have hp2a := rustParseU8_ascii hp2
                        have hp2l : p2.length = 2 := by
                          have := utf8Len_of_ascii hp2a
                          omega
                        have hconc2 : t2 ++ (p2 ++ u2) = p1 ++ u1 := by
                          rw [← hd2]
                          exact hd1
                        have ht2 : t2 = p1 :=
                          prefix_eq_utf8Len hconc2
                            (by have := utf8Len_of_ascii hp1a; omega)
                        rw [ht2] at hd2
                        have hu1eq : u1 = p2 ++ u2 :=
                          List.append_cancel_left (hd1.symm.trans hd2)
                        have hdrop2 : inner.drop 2 = p2 ++ u2 := by
                          rw [hd1, ← hp1l, List.drop_left, hu1eq]
                        have hdt2 : (inner.drop 2).take 2 = p2 := by
                          rw [hdrop2, ← hp2l, List.take_left]
                        cases hbs3 : byteSlice inner 4 6 with
                        | panicked =>
                          simp only [hbs3] at h
                          cases h
                        | ok p3 =>
                          simp only [hbs3] at h
                          cases hp3 : rustParseU8 16 p3 with
                          | none =>
                            simp [hp3] at h
                          | some n3 =>
                            obtain ⟨t3, u3, hd3, hlt3, hlp3⟩ := byteSlice_ok hbs3
                            have hp3a := rustParseU8_ascii hp3
                            have hp3l : p3.length = 2 := by
                              have := utf8Len_of_ascii hp3a
                              omega
                            have hconc3 : t3 ++ (p3 ++ u3) = (p1 ++ p2) ++ u2 := by
                              rw [← hd3, hd1, hu1eq, List.append_assoc]
                            have ht3 : t3 = p1 ++ p2 :=
                              prefix_eq_utf8Len hconc3
                                (by
                                  rw [utf8Len_append]
                                  have e1 := utf8Len_of_ascii hp1a
                                  have e2 := utf8Len_of_ascii hp2a
                                  omega)
                            rw [ht3] at hd3
                            have hu2eq : u2 = p3 ++ u3 := by
                              have h1x : (p1 ++ p2) ++ u2 = (p1 ++ p2) ++ (p3 ++ u3) := by
                                rw [← hd3, hd1, hu1eq, List.append_assoc]
                              exact List.append_cancel_left h1x
                            have hl4 : (p1 ++ p2).length = 4 := by
                              rw [List.length_append]
                              omega
                            have hdrop4 : inner.drop 4 = p3 ++ u3 := by
                              rw [hd1, hu1eq, hu2eq, ← List.append_assoc, ← hl4,
                                List.drop_left]
                            have hdt3 : (inner.drop 4).take 2 = p3 := by
                              rw [hdrop4, ← hp3l, List.take_left]
                            have hu30 : u3 = [] := by
                              apply utf8Len_eq_zero
                              have h6 : utf8Len inner
                                  = utf8Len p1 + utf8Len p2 + (utf8Len p3 + utf8Len u3) := by
                                rw [hd3, utf8Len_append, utf8Len_append, utf8Len_append]
                              omega
                            have hlen6 : inner.length = 6 := by
                              rw [hd3, hu30]
                              simp [hp1l, hp2l, hp3l]
                            exact ⟨c0, left :: rest2, rfl, hm,
                              Or.inr ⟨inner, by rw [hhex.1, hrest, hhex.2],
                                Or.inr ⟨hlen6, ⟨n1, by rw [htake1]; exact hp1⟩,
                                  ⟨n2, by rw [hdt2]; exact hp2⟩,
                                  ⟨n3, by rw [hdt3]; exact hp3⟩⟩⟩⟩
              · unfold parse_color_hex at h
                rw [if_neg hl2, if_neg hl6] at h
                simp at h
          · unfold parse_color_body at h
            rw [if_neg hparen, if_neg hhex] at h
            simp at h

theorem parse_color_fb_good_some {c0 : Char} (hm : c0 = 'f' ∨ c0 = 'b')
    (r : List Char) (buf : List Char) (hg : GoodColorLit (c0 :: r)) :
    ∃ out, parse_color (c0 :: r) buf = .ok (out, some ()) := by
  obtain ⟨m, body, heq, hmm, hbody⟩ := hg
  injection heq with he1 he2
  subst he1
  subst he2
  rcases hbody with ⟨inner, hb, hpo⟩ | ⟨inner, hb, hho⟩
  · subst hb
    rcases hpo with ⟨n, hn⟩ | ⟨a, b, c, hi, ⟨n1, h1⟩, ⟨n2, h2⟩, ⟨n3, h3⟩⟩
    · exact ⟨_, parse_color_paren_single c0 hm hn buf⟩
    · subst hi
      exact ⟨_, parse_color_paren_triple c0 hm h1 h2 h3 buf⟩
  · subst hb
    rcases hho with ⟨hl2, n, hn⟩ | ⟨hl6, ⟨n1, h1⟩, ⟨n2, h2⟩, ⟨n3, h3⟩⟩
    · exact ⟨_, parse_color_hex_two c0 hm hl2 hn buf⟩
    · exact ⟨_, parse_color_hex_six c0 hm hl6 h1 h2 h3 buf⟩

/-! ## Code tables and the C7 claim -/

/-- The add-style table as documented by the claim. -/
def addTable : List (String × Nat) :=
  [("Reset", 0), ("Bold", 1), ("Dim", 2), ("Italic", 3), ("Underline", 4), ("Blinking", 5),
    ("Inverse", 7), ("Hidden", 8), ("Strikethrough", 9)]

/-- The remove-style table as documented by the claim (Bold and Dim both
remove to 22). -/
def subTable : List (String × Nat) :=
  [("Bold", 22), ("Dim", 22), ("Italic", 23), ("Underline", 24), ("Blinking", 25),
    ("Inverse", 27), ("Hidden", 28), ("Strikethrough", 29)]

/-- The SGR code documented for each `Style` variant (doc comments of
`discrete.rs` lines 7-48). -/
def styleCode : Style → Nat
  | .Reset => 0
  | .Bold => 1
  | .Dim => 2
  | .Italic => 3
  | .Underline => 4
  | .Blinking => 5
  | .Inverse => 7
  | .Hidden => 8
  | .Strikethrough => 9
  | .NotBold => 22
  | .NotDim => 22
  | .NotItalic => 23
  | .NotUnderline => 24
  | .NotBlinking => 25
  | .NotInverse => 27
  | .NotHidden => 28
  | .NotStrikethrough => 29

/-- C7: the static add-style table maps exactly Reset, Bold, Dim, Italic,
Underline, Blinking, Inverse, Hidden, Strikethrough to 0,1,2,3,4,5,7,8,9;
the static remove-style table maps the corresponding keywords to
22,23,24,25,27,28,29 with Bold and Dim both removing to 22; any other
keyword returns `None`; and the dynamic `Style` enum writes exactly the
documented code for each variant. -/
theorem C7_style_code_tables :
    (∀ (s : String) (n : Nat), parse_add_style s = some n ↔ (s, n) ∈ addTable) ∧
    (∀ (s : String) (n : Nat), parse_sub_style s = some n ↔ (s, n) ∈ subTable) ∧
    (∀ (st : Style) (b : List Nat), Style.write st b = b ++ [styleCode st]) := by
  refine ⟨fun s n => ⟨fun h => ?_, fun h => ?_⟩, fun s n => ⟨fun h => ?_, fun h => ?_⟩,
    fun st b => by cases st <;> rfl⟩
  · unfold parse_add_style at h
    split_ifs at h <;> simp_all [addTable]
  · exact (by decide : ∀ p ∈ addTable, parse_add_style p.1 = some p.2) (s, n) h
  · unfold parse_sub_style at h
    split_ifs at h <;> (simp_all [subTable]; try tauto)
  · exact (by decide : ∀ p ∈ subTable, parse_sub_style p.1 = some p.2) (s, n) h

/-- C2 (amended): a valid `f`/`b` prefix followed by a parenthesized
single decimal value encodes as the mode selector (38 foreground, 48
background) then `5;<index>`; a parenthesized three-value decimal list
encodes as the selector then `2;<r>;<g>;<b>`; a bracketed 2-hex-digit pair
encodes as `5;<index>` and a bracketed 6-hex-digit string as
`2;<r>;<g>;<b>`; `parse_color` succeeds exactly on such inputs
(`GoodColorLit`), where "numeric content" is what Rust integer parsing
accepts — which includes an optional leading `+` sign (e.g. `f[+f]`
encodes as `38;5;15`).  On other inputs it returns `None` or, when a byte
slice boundary falls inside a multi-byte character, panics (see
`C2_counterexample`); failures are never a silent wrong encoding. -/
theorem C2_amended_color_literal_encoding :
    (∀ c0 : Char, c0 = 'f' ∨ c0 = 'b' → ∀ (l : List Char) (n : Nat),
      rustParseU8 10 l = some n → ∀ buf : List Char,
      parse_color (c0 :: '(' :: (l ++ [')'])) buf
        = .ok (buf ++ (if c0 = 'f' then lc "38;" else lc "48;") ++ lc "5;"
            ++ (Nat.repr n).data, some ())) ∧
    (∀ c0 : Char, c0 = 'f' ∨ c0 = 'b' → ∀ (a b c : List Char) (n1 n2 n3 : Nat),
      rustParseU8 10 a = some n1 → rustParseU8 10 b = some n2 → rustParseU8 10 c = some n3 →
      ∀ buf : List Char,
      parse_color (c0 :: '(' :: ((a ++ ',' :: (b ++ ',' :: c)) ++ [')'])) buf
        = .ok (buf ++ (if c0 = 'f' then lc "38;" else lc "48;") ++ lc "2;"
            ++ (Nat.repr n1).data ++ [';'] ++ (Nat.repr n2).data ++ [';']
            ++ (Nat.repr n3).data, some ())) ∧
    (∀ c0 : Char, c0 = 'f' ∨ c0 = 'b' → ∀ (l : List Char) (n : Nat), l.length = 2 →
      rustParseU8 16 l = some n → ∀ buf : List Char,
      parse_color (c0 :: '[' :: (l ++ [']'])) buf
        = .ok (buf ++ (if c0 = 'f' then lc "38;" else lc "48;") ++ lc "5;"
            ++ (Nat.repr n).data, some ())) ∧
    (∀ c0 : Char, c0 = 'f' ∨ c0 = 'b' → ∀ (l : List Char) (n1 n2 n3 : Nat), l.length = 6 →
      rustParseU8 16 (l.take 2) = some n1 → rustParseU8 16 ((l.drop 2).take 2) = some n2 →
      rustParseU8 16 ((l.drop 4).take 2) = some n3 → ∀ buf : List Char,
      parse_color (c0 :: '[' :: (l ++ [']'])) buf
        = .ok (buf ++ (if c0 = 'f' then lc "38;" else lc "48;") ++ lc "2;"
            ++ (Nat.repr n1).data ++ [';'] ++ (Nat.repr n2).data ++ [';']
            ++ (Nat.repr n3).data, some ())) ∧
    (∀ c0 : Char, c0 = 'f' ∨ c0 = 'b' → ∀ (r : List Char) (buf : List Char),
      ((∃ out, parse_color (c0 :: r) buf = .ok (out, some ())) ↔ GoodColorLit (c0 :: r))) := by
  refine ⟨fun c0 hm l n hn buf => parse_color_paren_single c0 hm hn buf,
    fun c0 hm a b c n1 n2 n3 h1 h2 h3 buf => parse_color_paren_triple c0 hm h1 h2 h3 buf,
    fun c0 hm l n hlen hn buf => parse_color_hex_two c0 hm hlen hn buf,
    fun c0 hm l n1 n2 n3 hlen h1 h2 h3 buf => parse_color_hex_six c0 hm hlen h1 h2 h3 buf,
    fun c0 hm r buf => ⟨fun hex => ?_, parse_color_fb_good_some hm r buf⟩⟩
  obtain ⟨out, hout⟩ := hex
  exact parse_color_fb_some_good hm r buf hout

/-- Witness for C2 (amended) at concrete inputs, one per conjunct. -/
theorem C2_amended_color_literal_encoding_witness :
    parse_color ('f' :: '(' :: (lc "255" ++ [')'])) [] = .ok (lc "38;5;255", some ()) ∧
    parse_color ('f' :: '(' :: ((lc "0" ++ ',' :: (lc "128" ++ ',' :: lc "255")) ++ [')'])) []
      = .ok (lc "38;2;0;128;255", some ()) ∧
    parse_color ('b' :: '[' :: (lc "ff" ++ [']'])) [] = .ok (lc "48;5;255", some ()) ∧
    parse_color ('f' :: '[' :: (lc "008000" ++ [']'])) [] = .ok (lc "38;2;0;128;0", some ()) ∧
    (∃ out, parse_color ('f' :: '[' :: (lc "+f" ++ [']'])) [] = .ok (out, some ())) := by
  refine ⟨?_, ?_, ?_, ?_, ?_⟩
  · rw [C2_amended_color_literal_encoding.1 'f' (Or.inl rfl) (lc "255") 255 (by decide) []]
    decide
  · rw [C2_amended_color_literal_encoding.2.1 'f' (Or.inl rfl) (lc "0") (lc "128") (lc "255")
      0 128 255 (by decide) (by decide) (by decide) []]
    decide
  · rw [C2_amended_color_literal_encoding.2.2.1 'b' (Or.inr rfl) (lc "ff") 255 (by decide)
      (by decide) []]
    decide
  · rw [C2_amended_color_literal_encoding.2.2.2.1 'f' (Or.inl rfl) (lc "008000") 0 128 0
      (by decide) (by decide) (by decide) (by decide) []]
    decide
  · exact (C2_amended_color_literal_encoding.2.2.2.2 'f' (Or.inl rfl)
      ('[' :: (lc "+f" ++ [']'])) []).mpr
      ⟨'f', '[' :: (lc "+f" ++ [']']), rfl, Or.inl rfl,
        Or.inr ⟨lc "+f", rfl, Or.inl ⟨by decide, 15, by decide⟩⟩⟩

/-- Witness for C4 (amended) at concrete inputs. -/
theorem C4_amended_unterminated_brace_witness :
    parse_string (lc "ab" ++ '{' :: '+' :: lc "Bold") = .panicked ∧
    parse_string (lc "ab" ++ '{' :: 'n' :: lc "ame")
      = .ok (some (lc "ab" ++ '{' :: 'n' :: lc "ame")) :=
  ⟨C4_amended_unterminated_brace.1 (lc "ab") (lc "Bold") '+' (by decide) (by decide)
      (by decide),
    C4_amended_unterminated_brace.2 (lc "ab") (lc "ame") 'n' (by decide) (by decide)
      (by decide) (by decide) (by decide)⟩

end AnsiGraphics
